import Mathlib

/-!
Verification development for the kubex-operator scaling engine and its
ScalingGroup reconciler.  The Go sources under `internal/scaling` and
`internal/controller` are shallowly embedded: pure helpers become Lean
functions, the Kubernetes client state becomes an explicit `World` value,
and panics / client errors become explicit outcome constructors.
-/

/-! ### Character-list string utilities

Go's `strings` helpers operate on byte strings; we model them on the
character data of Lean strings so that everything computes in the kernel.
-/

/-- Whether `needle` is a leading segment of `hay` (models `strings.HasPrefix`). -/
def seqStarts : List Char → List Char → Bool
  | [], _ => true
  | _ :: _, [] => false
  | a :: as, b :: bs => a = b && seqStarts as bs

/-- Whether `needle` occurs contiguously inside `hay` (models `strings.Contains`). -/
def containsSeq (needle : List Char) : List Char → Bool
  | [] => needle.isEmpty
  | c :: rest => seqStarts needle (c :: rest) || containsSeq needle rest

/-- Models `strings.TrimSpace` on character data. -/
def charsTrim (cs : List Char) : List Char :=
  ((cs.dropWhile Char.isWhitespace).reverse.dropWhile Char.isWhitespace).reverse

/-- Models `strings.TrimSpace`. -/
def strTrim (s : String) : String := ⟨charsTrim s.data⟩

/-- Models `strings.HasPrefix s p`. -/
def strStarts (s p : String) : Bool := seqStarts p.data s.data

/-- Models `strings.HasSuffix s p`. -/
def strEnds (s p : String) : Bool := seqStarts p.data.reverse s.data.reverse

/-- Models `strings.TrimSuffix s suf`: removes one trailing copy of `suf` when present. -/
def strCutSuffix (s suf : String) : String :=
  if strEnds s suf then ⟨s.data.take (s.data.length - suf.data.length)⟩ else s

/-- Models `strings.TrimPrefix s p`: removes one leading copy of `p` when present. -/
def strCutStart (s p : String) : String :=
  if strStarts s p then ⟨s.data.drop p.data.length⟩ else s

/-- Models `strings.Contains s sub`. -/
def containsStr (s sub : String) : Bool := containsSeq sub.data s.data

/-- Models `strings.Fields`: whitespace-separated words of `s`.
The first argument is the remaining input, the second the (reversed)
characters of the word currently being read. -/
def fieldsGo : List Char → List Char → List String
  | [], cur => if cur.isEmpty then [] else [⟨cur.reverse⟩]
  | c :: rest, cur =>
    if c.isWhitespace then
      if cur.isEmpty then fieldsGo rest [] else (⟨cur.reverse⟩ : String) :: fieldsGo rest []
    else fieldsGo rest (c :: cur)

/-- Models `strings.Fields`. -/
def strFields (s : String) : List String := fieldsGo s.data []

/-! ### Time-string parsing

`parseMinutes` in the source runs `fmt.Sscanf(hhmm, "%d:%d", &h, &m)` and
ignores the error: variables keep their zero value when their conversion
fails.  We model the `%d` verb (optional sign, decimal digits, leading
whitespace skipped) and the literal `:` matching of `Sscanf`. -/

/-- Numeric value of a digit run. -/
def natOfDigits (ds : List Char) : Nat :=
  ds.foldl (fun a c => a * 10 + (c.toNat - 48)) 0

/-- Greedy parse of a non-empty digit run; fails when no digit leads. -/
def takeDigits (cs : List Char) : Option (Nat × List Char) :=
  let ds := cs.takeWhile Char.isDigit
  if ds.isEmpty then none else some (natOfDigits ds, cs.drop ds.length)

/-- Models one `%d` conversion of `fmt.Sscanf`: skip whitespace, optional
sign, then a decimal digit run. -/
def scanInt (cs : List Char) : Option (Int × List Char) :=
  let cs := cs.dropWhile Char.isWhitespace
  match cs with
  | '-' :: rest => (takeDigits rest).map fun p => (-(p.1 : Int), p.2)
  | '+' :: rest => (takeDigits rest).map fun p => ((p.1 : Int), p.2)
  | _ => (takeDigits cs).map fun p => ((p.1 : Int), p.2)

/-- Models `parseMinutes`: `fmt.Sscanf(hhmm, "%d:%d", &h, &m)` with the
error discarded, then `h*60 + m`.  A variable whose conversion never ran
keeps its zero value. -/
def parseMinutes (s : String) : Int :=
  match scanInt s.data with
  | none => 0
  | some (h, rest) =>
    match rest with
    | ':' :: rest2 =>
      match scanInt rest2 with
      | none => h * 60
      | some (m, _) => h * 60 + m
    | _ => h * 60

/-! ### Schedule evaluator (`Engine.IsActive`)

Wall-clock access is abstracted into a `Clock`: `localNow` is the
operator-local instant and `zoneNow tz` is the same instant viewed in an
IANA timezone, `none` when `time.LoadLocation` would fail. -/

structure ScalingSchedule where
  days : List Int
  startTime : String
  endTime : String
  timezone : String
  deriving DecidableEq, Repr

structure TimePoint where
  weekday : Int
  minutes : Int
  deriving DecidableEq, Repr

structure Clock where
  localNow : TimePoint
  zoneNow : String → Option TimePoint

/-- The instant used for a schedule: local time, converted to the
schedule's timezone when that loads (`now.In(loc)`), silently kept local
otherwise. -/
def nowAt (c : Clock) (tz : String) : TimePoint :=
  if tz = "" then c.localNow
  else
    match c.zoneNow tz with
    | some t => t
    | none => c.localNow

/-- The schedule walk of `Engine.IsActive`: skip schedules with no days,
remember that a valid schedule exists, return true on the first matching
window, and default to false (valid schedules exist) or true (none do)
after the walk. -/
def isActiveLoop (c : Clock) : List ScalingSchedule → Bool → Bool
  | [], hasValid => !hasValid
  | s :: rest, hasValid =>
    if s.days.isEmpty then isActiveLoop c rest hasValid
    else
      let now := nowAt c s.timezone
      let weekday := now.weekday
      let nowMinutes := now.minutes
      if !(s.days.contains weekday) then isActiveLoop c rest true
      else
        let startMin := parseMinutes s.startTime
        let endMin := parseMinutes s.endTime
        if startMin ≤ nowMinutes && nowMinutes ≤ endMin then true
        else isActiveLoop c rest true

/-- Models `Engine.IsActive(schedules, manualActive)`. -/
def IsActive (c : Clock) (schedules : List ScalingSchedule) (manualActive : Option Bool) : Bool :=
  match manualActive with
  | some v => v
  | none => if schedules.length > 0 then isActiveLoop c schedules false else true

/-! ### Pattern matching helpers (`isExcluded`, `getSequenceIndex`) -/

/-- Models `isExcluded(name, exclusions)`. -/
def isExcluded (name : String) (exclusions : List String) : Bool :=
  let name := strTrim name
  exclusions.any fun ex =>
    let ex := strTrim ex
    if ex = "" then false
    else if ex = "*" then true
    else if strEnds ex "*" && strStarts name (strCutSuffix ex "*") then true
    else ex = name

/-- Index-passing walk of `getSequenceIndex`. -/
def seqIndexGo (name : String) : List String → Nat → Nat
  | [], _ => 999
  | s :: rest, i =>
    if s = "*" then i
    else if strEnds s "*" && strStarts name (strCutSuffix s "*") then i
    else if containsStr s name then i
    else seqIndexGo name rest (i + 1)

/-- Models `getSequenceIndex(obj, sequence)` (the object contributes only
its name). -/
def getSequenceIndex (name : String) (sequence : List String) : Nat :=
  seqIndexGo name sequence 0

/-! Sanity anchors replaying the unit tests of `engine_test.go`. -/

example : parseMinutes "00:00" = 0 := by decide
example : parseMinutes "01:30" = 90 := by decide
example : parseMinutes "12:00" = 720 := by decide
example : parseMinutes "23:59" = 1439 := by decide

example : isExcluded "frontend" ["backend", "redis"] = false := by decide
example : isExcluded "frontend" ["frontend"] = true := by decide
example : isExcluded "frontend" ["front*"] = true := by decide
example : isExcluded "api-server" ["*"] = true := by decide
example : isExcluded "db-postgres" ["db-*"] = true := by decide
example : isExcluded "db-postgres" ["db"] = false := by decide
example : isExcluded "  spaced  " ["spaced"] = true := by decide
example : isExcluded "empty-rule" [""] = false := by decide

example : getSequenceIndex "db-postgres" ["db-*", "backend", "*", "frontend"] = 0 := by decide
example : getSequenceIndex "backend" ["db-*", "backend", "*", "frontend"] = 1 := by decide
example : getSequenceIndex "anything-else" ["db-*", "backend", "*", "frontend"] = 2 := by decide
example : getSequenceIndex "frontend-app" ["db-*", "backend", "*", "frontend"] = 2 := by decide
example : getSequenceIndex "not-in-list" ["only-one"] = 999 := by decide

/-! ### The scaling engine (`Engine.ScaleTarget` and friends)

The Kubernetes client state for one namespace is a `World`: the
deployments and stateful sets it holds, plus a flag modelling a failing
`List` call.  A workload's `specReplicas` is an `Option` because
`Spec.Replicas` is a pointer in the source; `getReplicas` dereferences it
without a nil check, so a `none` there propagates as the `crash` outcome. -/

inductive Kind where
  | deployment
  | statefulSet
  deriving DecidableEq, Repr

/-- The string produced by Go's `%T` verb for the two workload pointer
types (`*v1.Deployment`, `*v1.StatefulSet`). -/
def typeStr : Kind → String
  | .deployment => "*v1.Deployment"
  | .statefulSet => "*v1.StatefulSet"

/-- The `originalReplicas` key built by `fmt.Sprintf("%T/%s", obj, obj.GetName())`. -/
def keyOf (k : Kind) (name : String) : String := typeStr k ++ "/" ++ name

structure Workload where
  name : String
  specReplicas : Option Int
  statusReplicas : Int
  statusReadyReplicas : Int
  deriving DecidableEq, Repr

structure World where
  deployments : List Workload
  statefulSets : List Workload
  listFails : Bool
  deriving DecidableEq, Repr

def World.kindList (w : World) : Kind → List Workload
  | .deployment => w.deployments
  | .statefulSet => w.statefulSets

/-- Client `Get` by kind and name. -/
def World.get (w : World) (k : Kind) (n : String) : Option Workload :=
  (w.kindList k).find? fun o => o.name = n

/-- Client `Update` after `setReplicas` assigned the desired count. -/
def World.setSpec (w : World) (k : Kind) (n : String) (c : Int) : World :=
  match k with
  | .deployment =>
      { w with deployments :=
          w.deployments.map fun o => if o.name = n then { o with specReplicas := some c } else o }
  | .statefulSet =>
      { w with statefulSets :=
          w.statefulSets.map fun o => if o.name = n then { o with specReplicas := some c } else o }

/-- Models `getReplicas`: the source returns `*v.Spec.Replicas`, so a nil
pointer is a panic, modelled as `none`. -/
def getReplicas (o : Workload) : Option Int := o.specReplicas

/-- One workload's readiness clause inside `isGroupReady`.  The object is
refetched (`e.Client.Get`); the source ignores the `Get` error, so a miss
keeps the stale in-memory copy. -/
def readyOne (w : World) (k : Kind) (o : Workload) (targetActive : Bool) : Bool :=
  let v := (w.get k o.name).getD o
  if targetActive then
    let target := v.specReplicas.getD 0
    !(target = 0) && !(v.statusReadyReplicas < target)
  else
    !(v.statusReadyReplicas > 0 || v.statusReplicas > 0)

/-- Models `Engine.isGroupReady`. -/
def isGroupReady (w : World) (objs : List (Kind × Workload)) (targetActive : Bool) : Bool :=
  objs.all fun ko => readyOne w ko.1 ko.2 targetActive

/-- Association-list view of the Go map `map[string]int32`. -/
abbrev Originals := List (String × Int)

def oLookup (m : Originals) (k : String) : Option Int :=
  match m with
  | [] => none
  | (k', v) :: rest => if k' = k then some v else oLookup rest k

def oInsert (m : Originals) (k : String) (v : Int) : Originals :=
  (k, v) :: m.filter fun p => !(p.1 = k)

def oErase (m : Originals) (k : String) : Originals :=
  m.filter fun p => !(p.1 = k)

/-- The body of the per-object loop in `Engine.ScaleTarget` step 5:
compute the target count, record the original on a first scale-down, and
write the new count when it differs.  `none` models the nil-pointer panic
of `getReplicas`. -/
def execObj (active : Bool) (st : World × Originals) (ko : Kind × Workload) :
    Option (World × Originals) :=
  let (w, originals) := st
  let (k, o) := ko
  let key := keyOf k o.name
  let target? : Option Int :=
    if !active then some 0
    else
      match oLookup originals key with
      | some t => some t
      | none =>
        match getReplicas o with
        | none => none
        | some current => some (if current > 0 then current else 1)
  match target? with
  | none => none
  | some target =>
    match getReplicas o with
    | none => none
    | some current =>
      if !(current = target) then
        let originals := if !active && current > 0 then oInsert originals key current else originals
        some (w.setSpec k o.name target, originals)
      else some (w, originals)

/-- Acting on one priority group: the object loop of step 5. -/
def execGroup (active : Bool) (objs : List (Kind × Workload)) (st : World × Originals) :
    Option (World × Originals) :=
  objs.foldlM (execObj active) st

inductive ScaleOutcome where
  | listErr
  | crash
  | done (w : World) (originals : Originals) (ready : Bool)
  deriving DecidableEq, Repr

/-- The priority-group loop of `Engine.ScaleTarget`: skip groups that are
already ready, act on the first unready one, stop there unless the
one-minute timeout bypass fires, and erase restored entries once a group
is observed ready while scaling up. -/
def runGroups (active timeoutPassed : Bool) :
    List (List (Kind × Workload)) → World → Originals → ScaleOutcome
  | [], w, originals => .done w originals true
  | objs :: rest, w, originals =>
    if isGroupReady w objs active then runGroups active timeoutPassed rest w originals
    else
      match execGroup active objs (w, originals) with
      | none => .crash
      | some (w', originals') =>
        if !isGroupReady w' objs active && !timeoutPassed then .done w' originals' false
        else
          let originals'' :=
            if active && isGroupReady w' objs active then
              objs.foldl (fun m ko => oErase m (keyOf ko.1 ko.2.name)) originals'
            else originals'
          runGroups active timeoutPassed rest w' originals''

/-- Steps 1–2 of `ScaleTarget`: list both kinds and drop exclusions
(deployments first, then stateful sets, as in the source). -/
def scalableIn (w : World) (exclusions : List String) : List (Kind × Workload) :=
  (w.deployments.filter fun o => !isExcluded o.name exclusions).map (fun o => (Kind.deployment, o))
    ++ (w.statefulSets.filter fun o => !isExcluded o.name exclusions).map fun o => (Kind.statefulSet, o)

def sortedInsert (n : Nat) : List Nat → List Nat
  | [] => [n]
  | m :: rest => if n ≤ m then n :: m :: rest else m :: sortedInsert n rest

/-- Ascending sort, modelling `sort.Ints`. -/
def sortNats (l : List Nat) : List Nat := l.foldr sortedInsert []

/-- Steps 3–4: the distinct priorities in ascending order, reversed when
scaling up. -/
def prioritiesOf (objs : List (Kind × Workload)) (sequence : List String) (active : Bool) :
    List Nat :=
  let ps := sortNats ((objs.map fun ko => getSequenceIndex ko.2.name sequence).dedup)
  if active then ps.reverse else ps

/-- The members of one priority group, in listing order. -/
def groupFor (objs : List (Kind × Workload)) (sequence : List String) (p : Nat) :
    List (Kind × Workload) :=
  objs.filter fun ko => getSequenceIndex ko.2.name sequence = p

/-- Models `Engine.ScaleTarget`.  `listErr` models a failing client
`List`, `crash` the nil-pointer panic inside `getReplicas`. -/
def scaleTarget (w : World) (active : Bool) (sequence exclusions : List String)
    (originalReplicas : Originals) (timeoutPassed : Bool) : ScaleOutcome :=
  if w.listFails then .listErr
  else
    let scalableResources := scalableIn w exclusions
    let priorities := prioritiesOf scalableResources sequence active
    runGroups active timeoutPassed (priorities.map (groupFor scalableResources sequence)) w
      originalReplicas

/-! ### Phase computer (`Engine.ComputePhase`) -/

/-- The tallies of `ComputePhase` over one workload list:
`(runningCount, zeroCount, readyCount)`.  A nil `Spec.Replicas` counts as
1 here (the source guards the nil). -/
def phaseCounts (os : List Workload) : Nat × Nat × Nat :=
  os.foldl
    (fun acc o =>
      let (running, zeroC, ready) := acc
      let replicas : Int := o.specReplicas.getD 1
      if replicas = 0 then (running, zeroC + 1, ready)
      else (running + 1, zeroC, if o.statusReadyReplicas ≥ replicas then ready + 1 else ready))
    (0, 0, 0)

/-- Models `Engine.ComputePhase` (exclusions play no role there). -/
def computePhase (w : World) (targetActive : Bool) : String :=
  let items := w.deployments ++ w.statefulSets
  let totalResources := items.length
  let counts := phaseCounts items
  let runningCount := counts.1
  let zeroCount := counts.2.1
  let readyCount := counts.2.2
  if totalResources = 0 then if targetActive then "ScaledUp" else "ScaledDown"
  else if zeroCount = totalResources then "ScaledDown"
  else if runningCount = totalResources && readyCount = totalResources then "ScaledUp"
  else if targetActive then
    if zeroCount > 0 || readyCount < runningCount then "ScalingUp" else "ScaledUp"
  else if runningCount > 0 && zeroCount > 0 then "ScalingDown"
  else if runningCount > 0 && zeroCount = 0 then "PartlyScaled"
  else "ScaledDown"

/-! ### Quiescent iteration

Between reconciles the cluster settles: observed status catches up with
the desired count.  `converge` models that settling, and `phaseIter`
repeats `ScaleTarget` (with `timeoutPassed = false`) until it reports the
target state reached, as the controllers' requeue loop does. -/

def convergeOne (o : Workload) : Workload :=
  match o.specReplicas with
  | some r => { o with statusReplicas := r, statusReadyReplicas := r }
  | none => o

def converge (w : World) : World :=
  { w with
    deployments := w.deployments.map convergeOne
    statefulSets := w.statefulSets.map convergeOne }

def phaseIter (active : Bool) (sequence exclusions : List String) :
    Nat → World → Originals → Option (World × Originals × Bool)
  | 0, w, originals => some (w, originals, false)
  | fuel + 1, w, originals =>
    match scaleTarget w active sequence exclusions originals false with
    | .done w' originals' ready =>
      if ready then some (w', originals', true)
      else phaseIter active sequence exclusions fuel (converge w') originals'
    | _ => none

/-! ### The ScalingGroup reconciler

Multi-namespace state is an association list from namespace names to
`World`s.  Events are carried structurally (type, reason and the data the
message interpolates).  Wall time enters as `elapsedSeconds`, the
`time.Since(status.lastAction)` value of this reconcile. -/

abbrev NsWorlds := List (String × World)

def emptyWorld : World := ⟨[], [], false⟩

def nsGet (nw : NsWorlds) (ns : String) : World :=
  match nw with
  | [] => emptyWorld
  | (n, w) :: rest => if n = ns then w else nsGet rest ns

def nsSet (nw : NsWorlds) (ns : String) (w : World) : NsWorlds :=
  (ns, w) :: nw.filter fun p => !(p.1 = ns)

structure ConfigRec where
  targetNamespace : String
  exclusions : List String
  sequence : List String
  deriving DecidableEq, Repr

structure GroupSpec where
  namespaces : List String
  sequence : List String
  active : Option Bool
  schedules : List ScalingSchedule
  deriving DecidableEq, Repr

structure GroupStatus where
  originalReplicas : Originals
  phase : String
  namespacesReady : Nat
  deriving DecidableEq, Repr

/-- Step 3 of the group reconcile: each sequence element is split on
whitespace into a stage, and namespaces mentioned nowhere form a final
implicit stage. -/
def buildStages (namespaces sequence : List String) : List (List String) :=
  if sequence.length > 0 then
    let stages := sequence.map strFields
    let missing := namespaces.filter fun ns => !(stages.any fun stage => stage.contains ns)
    if missing.length > 0 then stages ++ [missing] else stages
  else [namespaces]

/-- Stages in execution order: `buildStages`, reversed when scaling down. -/
def stagesFor (spec : GroupSpec) (targetActive : Bool) : List (List String) :=
  let stages := buildStages spec.namespaces spec.sequence
  if !targetActive then stages.reverse else stages

/-- The timeout window check: phase is a scaling phase and more than one
minute has passed since `status.lastAction`. -/
def computeTimeoutPassed (phase : String) (elapsedSeconds : Int) : Bool :=
  (phase = "ScalingUp" || phase = "ScalingDown") && elapsedSeconds > 60

inductive GEvent where
  | scalingTimeout (stage : Nat) (blocking : List String)
  | scalingActive (stage : Nat) (blocking : List String)
  | scalingProgress (ready total : Nat)
  | phaseTransition (oldPhase newPhase : String)
  deriving DecidableEq, Repr

/-- Per-reconcile running state of the stage iteration. -/
structure GIter where
  nsWorlds : NsWorlds
  originals : Originals
  allReady : Bool
  managedCount : Nat
  namespacesReady : Nat
  namespacesTotal : Nat
  blocking : List String
  deriving DecidableEq, Repr

/-- ScalingConfig inheritance: first config whose `targetNamespace`
matches supplies exclusions and sequence. -/
def inheritFor (configs : List ConfigRec) (ns : String) : List String × List String :=
  match configs.find? (fun cfg => cfg.targetNamespace = ns) with
  | some cfg => (cfg.exclusions, cfg.sequence)
  | none => ([], [])

/-- The entries of `status.originalReplicas` with the namespace's key
prefix, prefix trimmed (they are also deleted from the status map). -/
def takePrefixed (m : Originals) (pre : String) : Originals :=
  m.filterMap fun (p : String × Int) =>
    if strStarts p.1 pre then some (strCutStart p.1 pre, p.2) else none

/-- The entries of `status.originalReplicas` that keep their place when a
namespace's entries are extracted. -/
def dropPrefixed (m : Originals) (pre : String) : Originals :=
  m.filter fun p => !(strStarts p.1 pre)

/-- Processing of one namespace inside a stage (step 6 of the group
reconcile).  The boolean argument and result thread `stageReady`.
`none` propagates the engine's nil-pointer panic. -/
def processNs (configs : List ConfigRec) (targetActive timeoutPassed : Bool)
    (st : GIter) (stageReady : Bool) (ns : String) : Option (GIter × Bool) :=
  let st := { st with managedCount := st.managedCount + 1 }
  let inh := inheritFor configs ns
  let exclusions := inh.1
  let nsSequence := inh.2
  let pre := ns ++ "/"
  let nsReplicas := takePrefixed st.originals pre
  let rest := dropPrefixed st.originals pre
  match scaleTarget (nsGet st.nsWorlds ns) targetActive nsSequence exclusions nsReplicas
      timeoutPassed with
  | .crash => none
  | .listErr =>
    some ({ st with originals := rest, allReady := false, blocking := st.blocking ++ [ns] },
      false)
  | .done w' updatedOriginals nsReady =>
    let st := { st with
      nsWorlds := nsSet st.nsWorlds ns w'
      originals := rest ++ updatedOriginals.map fun (p : String × Int) => (pre ++ p.1, p.2)
      allReady := st.allReady && nsReady
      namespacesTotal := st.namespacesTotal + 1 }
    let phase := computePhase w' targetActive
    if (targetActive && phase = "ScaledUp") || (!targetActive && phase = "ScaledDown") then
      some ({ st with namespacesReady := st.namespacesReady + 1 }, stageReady && nsReady)
    else
      let blocking' := if st.blocking.contains ns then st.blocking else st.blocking ++ [ns]
      some ({ st with allReady := false, blocking := blocking' }, false)

/-- One stage: every namespace in it is processed, accumulating
`stageReady`. -/
def processStage (configs : List ConfigRec) (targetActive timeoutPassed : Bool)
    (stage : List String) (st : GIter) : Option (GIter × Bool) :=
  stage.foldlM (fun acc ns => processNs configs targetActive timeoutPassed acc.1 acc.2 ns)
    (st, true)

/-- The stage loop (step 6): an unready stage breaks out; `stoppedAt`
reports the index of the breaking stage, `none` when every stage ran
ready. -/
def processStages (configs : List ConfigRec) (targetActive timeoutPassed : Bool) :
    List (List String) → GIter → Nat → Option (GIter × Option Nat)
  | [], st, _ => some (st, none)
  | stage :: rest, st, idx =>
    match processStage configs targetActive timeoutPassed stage st with
    | none => none
    | some (st', stageReady) =>
      if !stageReady then some (st', some idx)
      else processStages configs targetActive timeoutPassed rest st' (idx + 1)

/-- The 1-based number of the first stage containing the first blocking
namespace, as reported in events (0 when none contains it). -/
def stageNumberFor (stages : List (List String)) (b0 : String) : Nat :=
  match stages.findIdx? (fun stage => stage.contains b0) with
  | some i => i + 1
  | none => 0

/-- Everything the reconcile writes or emits. -/
structure GroupResult where
  nsWorlds : NsWorlds
  originals : Originals
  phase : String
  lastActionReset : Bool
  events : List GEvent
  allReady : Bool
  stoppedAt : Option Nat
  blocking : List String
  managedCount : Nat
  namespacesReady : Nat
  namespacesTotal : Nat
  timeoutPassed : Bool
  deriving DecidableEq, Repr

/-- Models `ScalingGroupReconciler.Reconcile` after the group object has
been fetched: desired state, stages, timeout window, the stage loop,
events and the status update.  `none` propagates the engine panic. -/
def groupReconcile (c : Clock) (configs : List ConfigRec) (spec : GroupSpec)
    (status : GroupStatus) (elapsedSeconds : Int) (nsWorlds : NsWorlds) : Option GroupResult :=
  let targetActive := IsActive c spec.schedules spec.active
  let stages := stagesFor spec targetActive
  let timeoutPassed := computeTimeoutPassed status.phase elapsedSeconds
  let st0 : GIter :=
    { nsWorlds := nsWorlds, originals := status.originalReplicas, allReady := true,
      managedCount := 0, namespacesReady := 0, namespacesTotal := 0, blocking := [] }
  match processStages configs targetActive timeoutPassed stages st0 0 with
  | none => none
  | some (st, stoppedAt) =>
    let barrierEvents : List GEvent :=
      if !st.allReady && st.blocking.length > 0 then
        let sn := stageNumberFor stages (st.blocking.headD "")
        if timeoutPassed then [.scalingTimeout sn st.blocking]
        else [.scalingActive sn st.blocking]
      else []
    let progressEvents : List GEvent :=
      if st.namespacesReady > status.namespacesReady then
        [.scalingProgress st.namespacesReady st.namespacesTotal]
      else []
    let newPhase :=
      if st.allReady then if targetActive then "ScaledUp" else "ScaledDown"
      else if targetActive then "ScalingUp" else "ScalingDown"
    let transitionEvents : List GEvent :=
      if !(status.phase = newPhase) then [.phaseTransition status.phase newPhase] else []
    some
      { nsWorlds := st.nsWorlds, originals := st.originals, phase := newPhase,
        lastActionReset := !(status.phase = newPhase),
        events := barrierEvents ++ progressEvents ++ transitionEvents, allReady := st.allReady,
        stoppedAt := stoppedAt, blocking := st.blocking, managedCount := st.managedCount,
        namespacesReady := st.namespacesReady, namespacesTotal := st.namespacesTotal,
        timeoutPassed := timeoutPassed }

/-! ### Claim C7: sequence priority assignment -/

/-- One sequence element matching a workload name, as the specification
words it: the element is `*`, or a prefix-glob whose prefix matches, or
contains the name as a substring. -/
def seqElemMatches (s name : String) : Bool :=
  s = "*" || (strEnds s "*" && strStarts name (strCutSuffix s "*")) || containsStr s name

/-- Position of the first matching sequence element, per the claim's
wording. -/
def smallestMatch (name : String) : List String → Option Nat
  | [] => none
  | s :: rest =>
    if seqElemMatches s name then some 0 else (smallestMatch name rest).map (· + 1)

theorem seqIndexGo_eq_smallestMatch (name : String) :
    ∀ (l : List String) (i : Nat),
      seqIndexGo name l i =
        (match smallestMatch name l with
          | some j => i + j
          | none => 999) := by
  intro l
  induction l with
  | nil => intro i; simp [seqIndexGo, smallestMatch]
  | cons s rest ih =>
    intro i
    by_cases hA : s = "*"
    · simp [seqIndexGo, smallestMatch, seqElemMatches, hA]
    · by_cases hB : (strEnds s "*" && strStarts name (strCutSuffix s "*")) = true
      · simp [seqIndexGo, smallestMatch, seqElemMatches, hA, hB]
      · by_cases hC : containsStr s name = true
        · simp [seqIndexGo, smallestMatch, seqElemMatches, hA, hB, hC]
        · simp only [seqIndexGo, smallestMatch, seqElemMatches, hA, hB, hC]
          rw [ih (i + 1)]
          cases hm : smallestMatch name rest with
          | none => simp [hm]
          | some j => simp [hm]; ring

theorem smallestMatch_found (name : String) :
    ∀ (l : List String) (i : Nat), smallestMatch name l = some i →
      ∃ s, l.get? i = some s ∧ seqElemMatches s name = true ∧
        ∀ j s', j < i → l.get? j = some s' → seqElemMatches s' name = false := by
  intro l
  induction l with
  | nil => intro i h; simp [smallestMatch] at h
  | cons s rest ih =>
    intro i h
    by_cases hs : seqElemMatches s name = true
    · simp [smallestMatch, hs] at h
      subst h
      exact ⟨s, rfl, hs, by omega⟩
    · simp [smallestMatch, hs] at h
      obtain ⟨i', hi', rfl⟩ := h
      obtain ⟨t, ht, htm, hleast⟩ := ih i' hi'
      refine ⟨t, ht, htm, ?_⟩
      intro j s' hj hget
      cases j with
      | zero =>
        simp at hget
        subst hget
        simpa using hs
      | succ j' =>
        exact hleast j' s' (by omega) (by simpa using hget)

theorem smallestMatch_none (name : String) :
    ∀ (l : List String), smallestMatch name l = none →
      ∀ s ∈ l, seqElemMatches s name = false := by
  intro l
  induction l with
  | nil => intro _ s hs; simp at hs
  | cons t rest ih =>
    intro h s hs
    by_cases ht : seqElemMatches t name = true
    · simp [smallestMatch, ht] at h
    · simp [smallestMatch, ht] at h
      rcases List.mem_cons.mp hs with rfl | hs'
      · simpa using ht
      · exact ih h s hs'

/-- C7 — Sequence priority assignment: `getSequenceIndex` returns the
smallest index whose element is `*`, a matching prefix-glob, or contains
the name as a substring, and the sentinel 999 when nothing matches; the
claim's concrete examples evaluate as stated. -/
theorem c7_sequence_priority :
    (∀ (name : String) (sequence : List String),
        getSequenceIndex name sequence = (smallestMatch name sequence).getD 999
        ∧ (∀ i, smallestMatch name sequence = some i →
            ∃ s, sequence.get? i = some s ∧ seqElemMatches s name = true ∧
              ∀ j s', j < i → sequence.get? j = some s' → seqElemMatches s' name = false)
        ∧ (smallestMatch name sequence = none →
            ∀ s ∈ sequence, seqElemMatches s name = false))
    ∧ getSequenceIndex "db-x" ["db-*", "backend", "*", "frontend"] = 0
    ∧ getSequenceIndex "backend" ["db-*", "backend", "*", "frontend"] = 1
    ∧ getSequenceIndex "anything-else" ["db-*", "backend", "*", "frontend"] = 2
    ∧ getSequenceIndex "frontend-app" ["db-*", "backend", "*", "frontend"] = 2
    ∧ getSequenceIndex "not-in-list" ["db-*", "backend", "*", "frontend"] = 2
    ∧ getSequenceIndex "not-in-list" ["db-*", "backend", "frontend"] = 999 := by
  refine ⟨?_, by decide, by decide, by decide, by decide, by decide, by decide⟩
  intro name sequence
  refine ⟨?_, smallestMatch_found name sequence, smallestMatch_none name sequence⟩
  rw [getSequenceIndex, seqIndexGo_eq_smallestMatch]
  cases hm : smallestMatch name sequence with
  | none => simp
  | some j => simp

/-! ### Claim C3: `IsActive` reference semantics -/

/-- Validity of a schedule per the specification: its `days` list is
non-empty. -/
def schedValid (s : ScalingSchedule) : Bool := !s.days.isEmpty

/-- The claim's match predicate: the weekday (in the schedule's timezone,
falling back to local time) is in `days` and
`start ≤ nowMinutes ≤ end` inclusively. -/
def schedMatchesNow (c : Clock) (s : ScalingSchedule) : Bool :=
  s.days.contains (nowAt c s.timezone).weekday
    && parseMinutes s.startTime ≤ (nowAt c s.timezone).minutes
    && (nowAt c s.timezone).minutes ≤ parseMinutes s.endTime

/-- The claim's reference semantics for `IsActive`: manual override wins;
otherwise true iff a valid schedule matches now, false when valid
schedules exist but none matches, true when no valid schedule exists. -/
def isActiveClaim (c : Clock) (schedules : List ScalingSchedule) (m : Option Bool) : Bool :=
  match m with
  | some v => v
  | none =>
    if schedules.any (fun s => schedValid s && schedMatchesNow c s) then true
    else if schedules.any schedValid then false
    else true

theorem isActiveLoop_cons_valid (c : Clock) (s : ScalingSchedule) (rest : List ScalingSchedule)
    (hv : Bool) (hd : s.days.isEmpty = false) :
    isActiveLoop c (s :: rest) hv =
      if schedMatchesNow c s then true else isActiveLoop c rest true := by
  simp only [isActiveLoop, hd, Bool.false_eq_true, if_false]
  by_cases hc : s.days.contains (nowAt c s.timezone).weekday
  · by_cases h1 : parseMinutes s.startTime ≤ (nowAt c s.timezone).minutes
    · by_cases h2 : (nowAt c s.timezone).minutes ≤ parseMinutes s.endTime
      · simp [schedMatchesNow, hc, h1, h2]
      · simp [schedMatchesNow, hc, h1, h2]
    · simp [schedMatchesNow, hc, h1]
  · have hc' : ¬((nowAt c s.timezone).weekday ∈ s.days) := by simpa using hc
    simp [schedMatchesNow, hc']

theorem isActiveLoop_eq (c : Clock) :
    ∀ (l : List ScalingSchedule) (hv : Bool),
      isActiveLoop c l hv =
        (if l.any (fun s => schedValid s && schedMatchesNow c s) then true
          else if l.any schedValid then false
          else !hv) := by
  intro l
  induction l with
  | nil => intro hv; simp [isActiveLoop]
  | cons s rest ih =>
    intro hv
    by_cases hd : s.days.isEmpty
    · have hval : schedValid s = false := by simp [schedValid, hd]
      simp [isActiveLoop, hd, hval, ih hv]
    · have hd' : s.days.isEmpty = false := by simpa using hd
      have hval : schedValid s = true := by simp [schedValid, hd']
      rw [isActiveLoop_cons_valid c s rest hv hd']
      by_cases hm : schedMatchesNow c s
      · simp [hm, hval]
      · have hm' : schedMatchesNow c s = false := by simpa using hm
        rw [ih true]
        simp [hm', hval]

/-- C3 — `IsActive` reference semantics: the source's accumulator loop
agrees with the claim's description (manual override wins; otherwise some
valid schedule must match now; with no valid schedule the default is
active). -/
theorem c3_isactive_semantics :
    ∀ (c : Clock) (schedules : List ScalingSchedule) (m : Option Bool),
      IsActive c schedules m = isActiveClaim c schedules m := by
  intro c schedules m
  cases m with
  | some v => rfl
  | none =>
    cases schedules with
    | nil => rfl
    | cons s rest =>
      simp only [IsActive, isActiveClaim]
      rw [isActiveLoop_eq]
      simp

/-! ### Claim C8: time-string parse failure -/

/-- C8 counterexample — the claim says a schedule whose start time fails
to parse "never matches" and never makes `IsActive` return true; but
`Sscanf` failure leaves the minute value 0, so a failed *start* time
widens the window to `[0, end]`: here the unparsable start "garbage"
still yields an active schedule at minute 600. -/
theorem c8_failed_parse_still_matches :
    scanInt "garbage".data = none
    ∧ parseMinutes "garbage" = 0
    ∧ IsActive ⟨⟨2, 600⟩, fun _ => none⟩
        [⟨[2], "garbage", "23:59", ""⟩] none = true := by
  refine ⟨by decide, by decide, by decide⟩

theorem isActive_single_valid (c : Clock) (s : ScalingSchedule) (hd : s.days.isEmpty = false) :
    IsActive c [s] none = schedMatchesNow c s := by
  simp only [IsActive]
  rw [if_pos (by simp)]
  rw [isActiveLoop_cons_valid c s [] false hd]
  simp [isActiveLoop]

/-- C8 amended — a start or end time whose integer scan fails is treated
as minute 0 and evaluation is total; the window is then evaluated with
that zero, so a failed start time yields the window `[0, end]` (which can
still match), and a failed end time yields `start ≤ now ≤ 0`. -/
theorem c8_parse_failure_amended :
    ∀ (c : Clock) (s : ScalingSchedule), s.days.isEmpty = false →
      (scanInt s.startTime.data = none →
        parseMinutes s.startTime = 0
        ∧ IsActive c [s] none =
            (s.days.contains (nowAt c s.timezone).weekday
              && decide ((0 : Int) ≤ (nowAt c s.timezone).minutes)
              && decide ((nowAt c s.timezone).minutes ≤ parseMinutes s.endTime)))
      ∧ (scanInt s.endTime.data = none →
        parseMinutes s.endTime = 0
        ∧ IsActive c [s] none =
            (s.days.contains (nowAt c s.timezone).weekday
              && decide (parseMinutes s.startTime ≤ (nowAt c s.timezone).minutes)
              && decide ((nowAt c s.timezone).minutes ≤ (0 : Int)))) := by
  intro c s hd
  constructor
  · intro hscan
    have hp : parseMinutes s.startTime = 0 := by
      simp only [parseMinutes, hscan]
    refine ⟨hp, ?_⟩
    rw [isActive_single_valid c s hd]
    simp only [schedMatchesNow, hp]
  · intro hscan
    have hp : parseMinutes s.endTime = 0 := by
      simp only [parseMinutes, hscan]
    refine ⟨hp, ?_⟩
    rw [isActive_single_valid c s hd]
    simp only [schedMatchesNow, hp]

/-- Witness for the amended C8 at a schedule whose start and end both
fail to scan. -/
theorem c8_parse_failure_witness :
    (parseMinutes "bogus" = 0
      ∧ IsActive ⟨⟨2, 600⟩, fun _ => none⟩ [⟨[2], "bogus", "nope", ""⟩] none =
          (([2] : List Int).contains (2 : Int)
            && decide ((0 : Int) ≤ (600 : Int))
            && decide ((600 : Int) ≤ parseMinutes "nope")))
    ∧ (parseMinutes "nope" = 0
      ∧ IsActive ⟨⟨2, 600⟩, fun _ => none⟩ [⟨[2], "bogus", "nope", ""⟩] none =
          (([2] : List Int).contains (2 : Int)
            && decide (parseMinutes "bogus" ≤ (600 : Int))
            && decide ((600 : Int) ≤ (0 : Int)))) :=
  ⟨(c8_parse_failure_amended ⟨⟨2, 600⟩, fun _ => none⟩ ⟨[2], "bogus", "nope", ""⟩
      (by decide)).1 (by decide),
    (c8_parse_failure_amended ⟨⟨2, 600⟩, fun _ => none⟩ ⟨[2], "bogus", "nope", ""⟩
      (by decide)).2 (by decide)⟩

/-! ### Claim C9: engine totality on nil replica fields -/

/-- C9 — the claim (and §7 of the specification) says nothing is fatal and
a nil `Spec.Replicas` is handled; but `getReplicas` dereferences the field
without the nil guard used in `isGroupReady` and `ComputePhase`, so a
scale-down over a deployment with a nil desired-replica field panics
(`crash`) instead of completing. -/
theorem c9_nil_replicas_crash :
    getReplicas ⟨"app", none, 1, 1⟩ = none
    ∧ scaleTarget ⟨[⟨"app", none, 1, 1⟩], [], false⟩ false [] [] [] false = .crash
    ∧ scaleTarget ⟨[], [⟨"db", none, 1, 1⟩], false⟩ true [] [] [] false = .crash := by
  refine ⟨by decide, by decide, by decide⟩

/-! ### Claim C10: group original-replicas lost on scale error -/

/-- C10 — the group reconciler extracts (and deletes) a namespace's
`originalReplicas` entries before calling `ScaleTarget`, and on a
`ScaleTarget` error it `continue`s without merging them back: the saved
count for `ns1` is gone from the persisted status, contradicting the
claim (and the restoration-completeness invariant of §3). -/
theorem c10_originals_lost_on_error :
    oLookup [("ns1/*v1.Deployment/foo", 3)] "ns1/*v1.Deployment/foo" = some 3
    ∧ scaleTarget (nsGet [("ns1", ⟨[], [], true⟩)] "ns1") false [] []
        [("*v1.Deployment/foo", 3)] false = .listErr
    ∧ (groupReconcile ⟨⟨0, 0⟩, fun _ => none⟩ [] ⟨["ns1"], [], some false, []⟩
          ⟨[("ns1/*v1.Deployment/foo", 3)], "ScalingDown", 0⟩ 0
          [("ns1", ⟨[], [], true⟩)]).map
        (fun r => (oLookup r.originals "ns1/*v1.Deployment/foo", r.blocking)) =
      some (none, ["ns1"]) := by
  refine ⟨by decide, by decide, by decide⟩

/-! ### Claim C6: original-replicas key format -/

/-- C6 — the executor's key is built with Go's `%T` verb, which prints the
pointer type `*v1.Deployment`, not the kind `Deployment`: a scale-down of
deployment `foo` stores the key `*v1.Deployment/foo` while the claim (and
the field's own doc comment) promise `Deployment/foo`.  The group
reconciler does prefix the executor key with the namespace, so its keys
are `Namespace/*v1.Deployment/Name` rather than `Namespace/Kind/Name`. -/
theorem c6_key_format_uses_go_type :
    keyOf Kind.deployment "foo" = "*v1.Deployment/foo"
    ∧ keyOf Kind.statefulSet "bar" = "*v1.StatefulSet/bar"
    ∧ scaleTarget ⟨[⟨"foo", some 3, 3, 3⟩], [], false⟩ false [] [] [] false =
        .done ⟨[⟨"foo", some 0, 3, 3⟩], [], false⟩ [("*v1.Deployment/foo", 3)] false
    ∧ oLookup [("*v1.Deployment/foo", 3)] "Deployment/foo" = none
    ∧ (groupReconcile ⟨⟨0, 0⟩, fun _ => none⟩ [] ⟨["x"], [], some false, []⟩
          ⟨[], "", 0⟩ 0 [("x", ⟨[⟨"foo", some 3, 3, 3⟩], [], false⟩)]).map
        (fun r => r.originals) = some [("x/*v1.Deployment/foo", 3)] := by
  refine ⟨by decide, by decide, by decide, by decide, by decide⟩

/-- Witness for C7 at a concrete name and sequence, discharging the
`smallestMatch` hypothesis. -/
theorem c7_priority_witness :
    getSequenceIndex "db-x" ["db-*", "backend"] =
      (smallestMatch "db-x" ["db-*", "backend"]).getD 999
    ∧ (∃ s, (["db-*", "backend"] : List String).get? 0 = some s
        ∧ seqElemMatches s "db-x" = true
        ∧ ∀ j s', j < 0 → (["db-*", "backend"] : List String).get? j = some s' →
            seqElemMatches s' "db-x" = false) :=
  ⟨(c7_sequence_priority.1 "db-x" ["db-*", "backend"]).1,
    (c7_sequence_priority.1 "db-x" ["db-*", "backend"]).2.1 0 (by decide)⟩

/-! ### Claim C4: exclusion safety

The invariance arguments below show that `ScaleTarget` only ever writes
workloads drawn from the exclusion-filtered listing, and only ever touches
`originalReplicas` keys of such workloads. -/

theorem keyOf_eq_iff (k k' : Kind) (n n' : String) :
    keyOf k n = keyOf k' n' ↔ (k = k' ∧ n = n') := by
  constructor
  · intro h
    have hd : (keyOf k n).data = (keyOf k' n').data := by rw [h]
    simp only [keyOf] at hd
    rw [String.data_append, String.data_append, String.data_append, String.data_append] at hd
    cases k <;> cases k' <;> simp only [typeStr] at hd
    · refine ⟨rfl, ?_⟩
      have hnd : n.data = n'.data := by simpa using hd
      cases n; cases n'; exact congrArg String.mk (by simpa using hnd)
    · exfalso; simp at hd
    · exfalso; simp at hd
    · refine ⟨rfl, ?_⟩
      have hnd : n.data = n'.data := by simpa using hd
      cases n; cases n'; exact congrArg String.mk (by simpa using hnd)
  · rintro ⟨rfl, rfl⟩; rfl

theorem find?_name_map_setSpec (l : List Workload) (n n' : String) (c : Int) (h : ¬n = n') :
    (l.map fun o => if o.name = n' then { o with specReplicas := some c } else o).find?
        (fun o => o.name = n) =
      l.find? (fun o => o.name = n) := by
  have h' : ¬n' = n := fun hc => h hc.symm
  induction l with
  | nil => rfl
  | cons o rest ih =>
    simp only [List.map_cons, List.find?]
    by_cases ho : o.name = n'
    · have hno : ¬o.name = n := fun hc => h' (ho.symm.trans hc)
      simp [ho, hno, ih, h']
    · by_cases hn : o.name = n
      · simp [ho, hn, h]
      · simp [ho, hn, ih]

theorem get_setSpec_untouched (w : World) (k k' : Kind) (n n' : String) (c : Int)
    (h : ¬(k' = k ∧ n' = n)) :
    (w.setSpec k' n' c).get k n = w.get k n := by
  cases k <;> cases k' <;> simp only [World.setSpec, World.get, World.kindList] <;>
    first
      | rfl
      | exact find?_name_map_setSpec _ n n' c (fun hn => h ⟨rfl, hn.symm⟩)

theorem oLookup_filter_ne (m : Originals) (key k : String) (h : ¬k = key) :
    oLookup (m.filter fun p => !(p.1 = key)) k = oLookup m k := by
  have h' : ¬key = k := fun hc => h hc.symm
  induction m with
  | nil => rfl
  | cons p rest ih =>
    by_cases hp : p.1 = key
    · have hpk : ¬p.1 = k := fun hc => h' (hp.symm.trans hc)
      simp [List.filter, hp, oLookup, hpk, ih, h']
    · by_cases hk : p.1 = k
      · simp [List.filter, hp, oLookup, hk, h, h']
      · simp [List.filter, hp, oLookup, hk, ih, h, h']

theorem oLookup_oInsert_ne (m : Originals) (key k : String) (v : Int) (h : ¬k = key) :
    oLookup (oInsert m key v) k = oLookup m k := by
  simp only [oInsert, oLookup]
  rw [if_neg (fun hc => h hc.symm)]
  exact oLookup_filter_ne m key k h

theorem oLookup_oErase_ne (m : Originals) (key k : String) (h : ¬k = key) :
    oLookup (oErase m key) k = oLookup m k :=
  oLookup_filter_ne m key k h

/-- Acting on one workload changes neither a differently-named world entry
nor a different original-replicas key. -/
theorem execObj_untouched (active : Bool) (st st' : World × Originals) (ko : Kind × Workload)
    (h : execObj active st ko = some st') (k : Kind) (n : String)
    (hne : ¬(ko.1 = k ∧ ko.2.name = n)) :
    st'.1.get k n = st.1.get k n ∧ oLookup st'.2 (keyOf k n) = oLookup st.2 (keyOf k n) := by
  obtain ⟨w, originals⟩ := st
  obtain ⟨kk, o⟩ := ko
  have hkey : ¬keyOf k n = keyOf kk o.name := by
    intro hc
    obtain ⟨h1, h2⟩ := (keyOf_eq_iff k kk n o.name).mp hc
    exact hne ⟨h1.symm, h2.symm⟩
  simp only [execObj] at h
  cases hT : (if !active then some 0
      else match oLookup originals (keyOf kk o.name) with
        | some t => some t
        | none =>
          match getReplicas o with
          | none => none
          | some current => some (if current > 0 then current else 1)) with
  | none => rw [hT] at h; exact absurd h (by simp)
  | some target =>
    rw [hT] at h
    cases hC : getReplicas o with
    | none => rw [hC] at h; exact absurd h (by simp)
    | some current =>
      rw [hC] at h
      dsimp only at h
      by_cases hct : (!(current = target)) = true
      · rw [if_pos hct] at h
        simp only [Option.some.injEq] at h
        subst h
        constructor
        · exact get_setSpec_untouched w k kk n o.name target hne
        · by_cases hrec : (!active ∧ current > 0)
          · rw [if_pos (by simp [hrec.1, hrec.2])]
            exact oLookup_oInsert_ne originals (keyOf kk o.name) (keyOf k n) current hkey
          · rw [if_neg (by simpa [not_and] using hrec)]
      · rw [if_neg hct] at h
        simp only [Option.some.injEq] at h
        subst h
        exact ⟨rfl, rfl⟩

theorem execGroup_untouched (active : Bool) :
    ∀ (objs : List (Kind × Workload)) (st st' : World × Originals),
      execGroup active objs st = some st' →
      ∀ (k : Kind) (n : String), (∀ ko ∈ objs, ¬(ko.1 = k ∧ ko.2.name = n)) →
      st'.1.get k n = st.1.get k n ∧ oLookup st'.2 (keyOf k n) = oLookup st.2 (keyOf k n) := by
  intro objs
  induction objs with
  | nil =>
    intro st st' h k n _
    have h2 : (some st : Option (World × Originals)) = some st' := h
    cases h2
    exact ⟨rfl, rfl⟩
  | cons ko rest ih =>
    intro st st' h k n hno
    simp only [execGroup, List.foldlM_cons] at h
    cases hx : execObj active st ko with
    | none => rw [hx] at h; exact absurd h (by simp)
    | some st1 =>
      rw [hx] at h
      have h' : execGroup active rest st1 = some st' := h
      have hfirst := execObj_untouched active st st1 ko hx k n (hno ko (by simp))
      have hrest := ih st1 st' h' k n (fun ko' hk => hno ko' (by simp [hk]))
      exact ⟨hrest.1.trans hfirst.1, hrest.2.trans hfirst.2⟩

theorem oLookup_foldl_oErase (k : Kind) (n : String) :
    ∀ (objs : List (Kind × Workload)) (m : Originals),
      (∀ ko ∈ objs, ¬(ko.1 = k ∧ ko.2.name = n)) →
      oLookup (objs.foldl (fun m ko => oErase m (keyOf ko.1 ko.2.name)) m) (keyOf k n) =
        oLookup m (keyOf k n) := by
  intro objs
  induction objs with
  | nil => intro m _; rfl
  | cons ko rest ih =>
    intro m hno
    have hkey : ¬keyOf k n = keyOf ko.1 ko.2.name := by
      intro hc
      obtain ⟨h1, h2⟩ := (keyOf_eq_iff k ko.1 n ko.2.name).mp hc
      exact hno ko (by simp) ⟨h1.symm, h2.symm⟩
    simp only [List.foldl_cons]
    rw [ih (oErase m (keyOf ko.1 ko.2.name)) (fun ko' hk => hno ko' (by simp [hk]))]
    exact oLookup_oErase_ne m (keyOf ko.1 ko.2.name) (keyOf k n) hkey

theorem runGroups_untouched (active timeout : Bool) :
    ∀ (groups : List (List (Kind × Workload))) (w : World) (originals : Originals)
      (w' : World) (originals' : Originals) (ready : Bool),
      runGroups active timeout groups w originals = .done w' originals' ready →
      ∀ (k : Kind) (n : String),
        (∀ objs ∈ groups, ∀ ko ∈ objs, ¬(ko.1 = k ∧ ko.2.name = n)) →
        w'.get k n = w.get k n ∧
          oLookup originals' (keyOf k n) = oLookup originals (keyOf k n) := by
  intro groups
  induction groups with
  | nil =>
    intro w originals w' originals' ready hrun k n _
    simp only [runGroups, ScaleOutcome.done.injEq] at hrun
    obtain ⟨rfl, rfl, _⟩ := hrun
    exact ⟨rfl, rfl⟩
  | cons objs rest ih =>
    intro w originals w' originals' ready hrun k n hno
    have hobjs : ∀ ko ∈ objs, ¬(ko.1 = k ∧ ko.2.name = n) := hno objs (by simp)
    have hrest : ∀ os ∈ rest, ∀ ko ∈ os, ¬(ko.1 = k ∧ ko.2.name = n) :=
      fun os hos => hno os (by simp [hos])
    simp only [runGroups] at hrun
    by_cases hr : isGroupReady w objs active
    · rw [if_pos hr] at hrun
      exact ih w originals w' originals' ready hrun k n hrest
    · rw [if_neg hr] at hrun
      cases hx : execGroup active objs (w, originals) with
      | none => rw [hx] at hrun; exact absurd hrun (by simp)
      | some st1 =>
        rw [hx] at hrun
        obtain ⟨w1, o1⟩ := st1
        have hstep := execGroup_untouched active objs (w, originals) (w1, o1) hx k n hobjs
        dsimp only at hrun
        by_cases hstop : (!isGroupReady w1 objs active && !timeout) = true
        · rw [if_pos hstop] at hrun
          simp only [ScaleOutcome.done.injEq] at hrun
          obtain ⟨rfl, rfl, _⟩ := hrun
          exact hstep
        · rw [if_neg hstop] at hrun
          by_cases hdel : (active && isGroupReady w1 objs active) = true
          · rw [if_pos hdel] at hrun
            have hih := ih w1 _ w' originals' ready hrun k n hrest
            refine ⟨hih.1.trans hstep.1, ?_⟩
            rw [hih.2, oLookup_foldl_oErase k n objs o1 hobjs, hstep.2]
          · rw [if_neg hdel] at hrun
            have hih := ih w1 o1 w' originals' ready hrun k n hrest
            exact ⟨hih.1.trans hstep.1, hih.2.trans hstep.2⟩

theorem mem_scalable_not_excluded (w : World) (excl : List String) (ko : Kind × Workload)
    (h : ko ∈ scalableIn w excl) : isExcluded ko.2.name excl = false := by
  simp only [scalableIn, List.mem_append, List.mem_map] at h
  rcases h with ⟨o, ho, rfl⟩ | ⟨o, ho, rfl⟩ <;>
    · simp only [List.mem_filter] at ho
      simpa using ho.2

theorem isExcluded_star (n : String) : isExcluded n ["*"] = true := by
  simp only [isExcluded, List.any_cons, List.any_nil]
  have h : strTrim "*" = "*" := by decide
  simp [h]

/-- C4 — Exclusion safety: an excluded workload's stored state and its
original-replicas entry are untouched by any successful `ScaleTarget` run,
and with exclusions `["*"]` a scale-down is a complete no-op. -/
theorem c4_exclusion_safety :
    ∀ (w : World) (active : Bool) (sequence exclusions : List String) (originals : Originals)
      (timeoutPassed : Bool) (w' : World) (originals' : Originals) (ready : Bool)
      (k : Kind) (n : String),
      (scaleTarget w active sequence exclusions originals timeoutPassed =
          .done w' originals' ready →
        isExcluded n exclusions = true →
        w'.get k n = w.get k n ∧
          oLookup originals' (keyOf k n) = oLookup originals (keyOf k n))
      ∧ (w.listFails = false →
          scaleTarget w false sequence ["*"] originals timeoutPassed =
            .done w originals true) := by
  intro w active sequence exclusions originals timeoutPassed w' originals' ready k n
  constructor
  · intro hrun hexcl
    simp only [scaleTarget] at hrun
    by_cases hlf : w.listFails = true
    · rw [if_pos hlf] at hrun; exact absurd hrun (by simp)
    · rw [if_neg hlf] at hrun
      refine runGroups_untouched active timeoutPassed _ w originals w' originals' ready hrun k n
        ?_
      rintro objs hobjs ko hko ⟨hk1, hk2⟩
      have hmem : ko ∈ scalableIn w exclusions := by
        simp only [List.mem_map] at hobjs
        obtain ⟨p, _, rfl⟩ := hobjs
        exact List.mem_of_mem_filter hko
      have hne := mem_scalable_not_excluded w exclusions ko hmem
      rw [hk2, hexcl] at hne
      exact absurd hne (by simp)
  · intro hlf
    have hdep : w.deployments.filter (fun o => !isExcluded o.name ["*"]) = [] := by
      rw [List.filter_eq_nil_iff]
      intro a _
      simp [isExcluded_star]
    have hss : w.statefulSets.filter (fun o => !isExcluded o.name ["*"]) = [] := by
      rw [List.filter_eq_nil_iff]
      intro a _
      simp [isExcluded_star]
    simp only [scaleTarget, hlf, Bool.false_eq_true, if_false, scalableIn, hdep, hss]
    simp [prioritiesOf, sortNats, runGroups]

/-- Witness for C4: with exclusions `["keep"]` a scale-down writes `drop`
but leaves `keep` and its original-replicas slot untouched; with `["*"]`
the run is an identity. -/
theorem c4_exclusion_witness :
    ((⟨[⟨"keep", some 2, 2, 2⟩, ⟨"drop", some 0, 3, 3⟩], [], false⟩ : World).get
        Kind.deployment "keep" =
      (⟨[⟨"keep", some 2, 2, 2⟩, ⟨"drop", some 3, 3, 3⟩], [], false⟩ : World).get
        Kind.deployment "keep"
      ∧ oLookup [("*v1.Deployment/drop", 3)] (keyOf Kind.deployment "keep") =
          oLookup [] (keyOf Kind.deployment "keep"))
    ∧ scaleTarget ⟨[⟨"keep", some 2, 2, 2⟩, ⟨"drop", some 3, 3, 3⟩], [], false⟩ false [] ["*"]
        [] false =
      .done ⟨[⟨"keep", some 2, 2, 2⟩, ⟨"drop", some 3, 3, 3⟩], [], false⟩ [] true :=
  ⟨(c4_exclusion_safety ⟨[⟨"keep", some 2, 2, 2⟩, ⟨"drop", some 3, 3, 3⟩], [], false⟩ false []
        ["keep"] [] false
        ⟨[⟨"keep", some 2, 2, 2⟩, ⟨"drop", some 0, 3, 3⟩], [], false⟩
        [("*v1.Deployment/drop", 3)] false Kind.deployment "keep").1 (by decide) (by decide),
    (c4_exclusion_safety ⟨[⟨"keep", some 2, 2, 2⟩, ⟨"drop", some 3, 3, 3⟩], [], false⟩ false []
        ["*"] [] false
        ⟨[⟨"keep", some 2, 2, 2⟩, ⟨"drop", some 0, 3, 3⟩], [], false⟩
        [("*v1.Deployment/drop", 3)] false Kind.deployment "keep").2 (by decide)⟩

/-! ### Claim C2: staged barrier safety

The lemmas below show that the stage loop never touches a namespace that
only occurs after the breaking stage: writes to stage `k+1` happen only
when every namespace of stage `k` was processed ready (which includes
reaching its target phase). -/

theorem nsGet_filter_ne (nw : NsWorlds) (ns ns0 : String) (h : ¬ns0 = ns) :
    nsGet (nw.filter fun p => !(p.1 = ns)) ns0 = nsGet nw ns0 := by
  have h' : ¬ns = ns0 := fun hc => h hc.symm
  induction nw with
  | nil => rfl
  | cons p rest ih =>
    by_cases hp : p.1 = ns
    · have hpk : ¬p.1 = ns0 := fun hc => h (hc.symm.trans hp)
      simp [List.filter, hp, nsGet, hpk, ih, h']
    · by_cases hk : p.1 = ns0
      · simp [List.filter, hp, nsGet, hk, h, h']
      · simp [List.filter, hp, nsGet, hk, ih, h, h']

theorem nsGet_nsSet_ne (nw : NsWorlds) (ns ns0 : String) (w : World) (h : ¬ns0 = ns) :
    nsGet (nsSet nw ns w) ns0 = nsGet nw ns0 := by
  simp only [nsSet, nsGet]
  rw [if_neg (fun hc => h hc.symm)]
  exact nsGet_filter_ne nw ns ns0 h

theorem processNs_untouched (configs : List ConfigRec) (ta tp : Bool) (st : GIter)
    (sr : Bool) (ns : String) (st' : GIter) (sr' : Bool)
    (h : processNs configs ta tp st sr ns = some (st', sr')) (ns0 : String) (hne : ¬ns0 = ns) :
    nsGet st'.nsWorlds ns0 = nsGet st.nsWorlds ns0 := by
  simp only [processNs] at h
  cases hx : scaleTarget (nsGet st.nsWorlds ns) ta (inheritFor configs ns).2
      (inheritFor configs ns).1 (takePrefixed st.originals (ns ++ "/")) tp with
  | crash => rw [hx] at h; exact absurd h (by simp)
  | listErr =>
    rw [hx] at h
    simp only [Option.some.injEq, Prod.mk.injEq] at h
    obtain ⟨rfl, _⟩ := h
    rfl
  | done w' updated nsReady =>
    rw [hx] at h
    dsimp only at h
    by_cases hph : ((ta && computePhase w' ta = "ScaledUp")
        || (!ta && computePhase w' ta = "ScaledDown")) = true
    · rw [if_pos hph] at h
      simp only [Option.some.injEq, Prod.mk.injEq] at h
      obtain ⟨rfl, _⟩ := h
      exact nsGet_nsSet_ne st.nsWorlds ns ns0 w' hne
    · rw [if_neg hph] at h
      simp only [Option.some.injEq, Prod.mk.injEq] at h
      obtain ⟨rfl, _⟩ := h
      exact nsGet_nsSet_ne st.nsWorlds ns ns0 w' hne

theorem processStage_untouched (configs : List ConfigRec) (ta tp : Bool) :
    ∀ (stage : List String) (acc : GIter × Bool) (out : GIter × Bool),
      stage.foldlM (fun acc ns => processNs configs ta tp acc.1 acc.2 ns) acc = some out →
      ∀ ns0, ns0 ∉ stage → nsGet out.1.nsWorlds ns0 = nsGet acc.1.nsWorlds ns0 := by
  intro stage
  induction stage with
  | nil =>
    intro acc out h ns0 _
    have h2 : (some acc : Option (GIter × Bool)) = some out := h
    cases h2
    rfl
  | cons ns rest ih =>
    intro acc out h ns0 hni
    simp only [List.foldlM_cons] at h
    cases hx : processNs configs ta tp acc.1 acc.2 ns with
    | none => rw [hx] at h; exact absurd h (by simp)
    | some acc1 =>
      rw [hx] at h
      have h' : rest.foldlM (fun acc ns => processNs configs ta tp acc.1 acc.2 ns) acc1 =
          some out := h
      have hstep := processNs_untouched configs ta tp acc.1 acc.2 ns acc1.1 acc1.2
        (by simpa using hx) ns0 (fun hc => hni (by simp [hc]))
      have hrest := ih acc1 out h' ns0 (fun hc => hni (by simp [hc]))
      exact hrest.trans hstep

theorem processStages_break_untouched (configs : List ConfigRec) (ta tp : Bool) :
    ∀ (stages : List (List String)) (st : GIter) (idx : Nat) (st' : GIter) (j : Nat),
      processStages configs ta tp stages st idx = some (st', some j) →
      idx ≤ j ∧
        ∀ ns0, (∀ s ∈ stages.take (j - idx + 1), ns0 ∉ s) →
          nsGet st'.nsWorlds ns0 = nsGet st.nsWorlds ns0 := by
  intro stages
  induction stages with
  | nil =>
    intro st idx st' j h
    simp only [processStages, Option.some.injEq, Prod.mk.injEq] at h
    exact absurd h.2 (by simp)
  | cons stage rest ih =>
    intro st idx st' j h
    simp only [processStages] at h
    cases hx : processStage configs ta tp stage st with
    | none => rw [hx] at h; exact absurd h (by simp)
    | some out =>
      rw [hx] at h
      obtain ⟨st1, sr⟩ := out
      dsimp only at h
      by_cases hsr : (!sr) = true
      · rw [if_pos hsr] at h
        simp only [Option.some.injEq, Prod.mk.injEq, Option.some.injEq] at h
        obtain ⟨rfl, rfl⟩ := h
        refine ⟨Nat.le_refl _, ?_⟩
        intro ns0 hns
        have hstage : ns0 ∉ stage := by
          have := hns stage (by simp [List.take])
          exact this
        exact processStage_untouched configs ta tp stage (st, true) (st1, sr) hx ns0 hstage
      · rw [if_neg hsr] at h
        obtain ⟨hle, huntouched⟩ := ih st1 (idx + 1) st' j h
        refine ⟨by omega, ?_⟩
        intro ns0 hns
        have htk : j - idx + 1 = (j - (idx + 1) + 1) + 1 := by omega
        have hhead : ns0 ∉ stage := by
          refine hns stage ?_
          rw [htk]
          simp [List.take]
        have htail : ∀ s ∈ rest.take (j - (idx + 1) + 1), ns0 ∉ s := by
          intro s hs
          refine hns s ?_
          rw [htk]
          simp only [List.take]
          exact List.mem_cons_of_mem _ hs
        have h1 := huntouched ns0 htail
        have h2 := processStage_untouched configs ta tp stage (st, true) (st1, sr) hx ns0 hhead
        exact h1.trans h2

/-- C2 — Staged barrier safety: when the stage loop stops at stage `j`
(some namespace there errored, stayed unready, or missed its target
phase), every namespace that occurs only in later stages keeps its world
untouched — no workload of a later stage is written.  This holds for
every value of `timeoutPassed`: whenever the loop does stop, later
stages are untouched (under the bypass the loop may instead judge a
stage ready and advance, and then it has not stopped). -/
theorem c2_staged_barrier :
    ∀ (c : Clock) (configs : List ConfigRec) (spec : GroupSpec) (status : GroupStatus)
      (elapsedSeconds : Int) (nw : NsWorlds) (res : GroupResult) (j : Nat),
      groupReconcile c configs spec status elapsedSeconds nw = some res →
      res.stoppedAt = some j →
      ∀ ns0,
        (∀ s ∈ (stagesFor spec (IsActive c spec.schedules spec.active)).take (j + 1), ns0 ∉ s) →
        nsGet res.nsWorlds ns0 = nsGet nw ns0 := by
  intro c configs spec status elapsed nw res j hrec hstop ns0 hns
  simp only [groupReconcile] at hrec
  cases hps : processStages configs (IsActive c spec.schedules spec.active)
      (computeTimeoutPassed status.phase elapsed)
      (stagesFor spec (IsActive c spec.schedules spec.active))
      ⟨nw, status.originalReplicas, true, 0, 0, 0, []⟩ 0 with
  | none => rw [hps] at hrec; exact absurd hrec (by simp)
  | some out =>
    rw [hps] at hrec
    obtain ⟨st, stopped⟩ := out
    dsimp only at hrec
    simp only [Option.some.injEq] at hrec
    subst hrec
    dsimp only at hstop
    subst hstop
    have hlem := processStages_break_untouched configs
      (IsActive c spec.schedules spec.active) (computeTimeoutPassed status.phase elapsed)
      (stagesFor spec (IsActive c spec.schedules spec.active))
      ⟨nw, status.originalReplicas, true, 0, 0, 0, []⟩ 0 st j hps
    have := hlem.2 ns0 (by simpa using hns)
    simpa using this

/-- Witness for C2: a two-stage group (`a` then `b`, scaling up) whose
first stage is stuck leaves namespace `b` untouched. -/
theorem c2_staged_barrier_witness :
    nsGet (GroupResult.mk
        [("a", ⟨[⟨"app", some 1, 0, 0⟩], [], false⟩),
          ("b", ⟨[⟨"web", some 0, 0, 0⟩], [], false⟩)]
        [] "ScalingUp" false [GEvent.scalingActive 1 ["a"]] false (some 0) ["a"] 1 0 1
        false).nsWorlds "b" =
      nsGet
        [("a", ⟨[⟨"app", some 1, 0, 0⟩], [], false⟩),
          ("b", ⟨[⟨"web", some 0, 0, 0⟩], [], false⟩)] "b" :=
  c2_staged_barrier ⟨⟨0, 0⟩, fun _ => none⟩ [] ⟨["a", "b"], ["a", "b"], some true, []⟩
    ⟨[], "ScalingUp", 0⟩ 10
    [("a", ⟨[⟨"app", some 1, 0, 0⟩], [], false⟩),
      ("b", ⟨[⟨"web", some 0, 0, 0⟩], [], false⟩)]
    (GroupResult.mk
      [("a", ⟨[⟨"app", some 1, 0, 0⟩], [], false⟩),
        ("b", ⟨[⟨"web", some 0, 0, 0⟩], [], false⟩)]
      [] "ScalingUp" false [GEvent.scalingActive 1 ["a"]] false (some 0) ["a"] 1 0 1 false)
    0 (by decide) rfl "b" (by decide)

/-! ### Claim C5: timeout bypass -/

/-- C5 counterexample — stage 0 (`a`) is stuck, the phase is `ScalingUp`
and 61 s have elapsed, so `timeoutPassed` is set and the
`ScalingTimeout` warning names the blocker; but the claim's "proceeds
into the next stage (writes that stage's namespaces)" is false: stage 1's
namespace `b` is left with its desired count still 0, and the stage loop
still stops at stage 0. -/
theorem c5_next_stage_not_written :
    (groupReconcile ⟨⟨0, 0⟩, fun _ => none⟩ [] ⟨["a", "b"], ["a", "b"], some true, []⟩
          ⟨[], "ScalingUp", 0⟩ 61
          [("a", ⟨[⟨"app", some 1, 0, 0⟩], [], false⟩),
            ("b", ⟨[⟨"web", some 0, 0, 0⟩], [], false⟩)]).map
        (fun r => (r.timeoutPassed, r.events, nsGet r.nsWorlds "b", r.stoppedAt)) =
      some (true, [GEvent.scalingTimeout 1 ["a"]],
        ⟨[⟨"web", some 0, 0, 0⟩], [], false⟩, some 0) := by
  decide

theorem runGroups_timeout_ready (active : Bool) :
    ∀ (groups : List (List (Kind × Workload))) (w : World) (originals : Originals)
      (w' : World) (originals' : Originals) (r : Bool),
      runGroups active true groups w originals = .done w' originals' r → r = true := by
  intro groups
  induction groups with
  | nil =>
    intro w o w' o' r h
    simp only [runGroups, ScaleOutcome.done.injEq] at h
    exact h.2.2.symm
  | cons objs rest ih =>
    intro w o w' o' r h
    simp only [runGroups] at h
    by_cases hr : isGroupReady w objs active
    · rw [if_pos hr] at h; exact ih _ _ _ _ _ h
    · rw [if_neg hr] at h
      cases hx : execGroup active objs (w, o) with
      | none => rw [hx] at h; exact absurd h (by simp)
      | some st1 =>
        rw [hx] at h
        obtain ⟨w1, o1⟩ := st1
        dsimp only at h
        rw [if_neg (by simp)] at h
        exact ih _ _ _ _ _ h

theorem runGroups_not_listErr (a tp : Bool) :
    ∀ (gs : List (List (Kind × Workload))) (w : World) (m : Originals),
      ¬runGroups a tp gs w m = .listErr := by
  intro gs
  induction gs with
  | nil => intro w m h; simp [runGroups] at h
  | cons objs rest ih =>
    intro w m h
    simp only [runGroups] at h
    by_cases hr : isGroupReady w objs a
    · rw [if_pos hr] at h
      exact ih w m h
    · rw [if_neg hr] at h
      cases hx : execGroup a objs (w, m) with
      | none => rw [hx] at h; simp at h
      | some st1 =>
        rw [hx] at h
        obtain ⟨w1, m1⟩ := st1
        dsimp only at h
        by_cases hstop : (!isGroupReady w1 objs a && !tp) = true
        · rw [if_pos hstop] at h
          simp at h
        · rw [if_neg hstop] at h
          exact ih w1 _ h

theorem nsGet_nsSet_self (nw : NsWorlds) (ns : String) (w : World) :
    nsGet (nsSet nw ns w) ns = w := by
  simp [nsSet, nsGet]

/-- C5 amended — when the phase is a scaling phase and more than 60 s
have elapsed since `lastAction`, the next reconcile sets `timeoutPassed`;
the bypass makes every namespace's `ScaleTarget` run through all priority
groups and report completion instead of stopping at the first unready
one, so the stage barrier is then decided solely by `ComputePhase`'s
target-phase check on each namespace's written state.  When scaling down
that check passes (it counts desired counts, which the bypassed run has
just written to 0), so the reconcile does proceed into the next stage in
the same reconcile — and, nothing blocking, emits no `ScalingTimeout`
event; when scaling up while observed statuses still lag, the check
fails, the loop still breaks at the stuck stage without writing later
stages, and the Warning `ScalingTimeout` event naming the blocking
namespaces is emitted. -/
theorem c5_timeout_bypass_amended :
    (∀ (phase : String) (elapsed : Int),
        (phase = "ScalingUp" ∨ phase = "ScalingDown") → elapsed > 60 →
        computeTimeoutPassed phase elapsed = true)
    ∧ (∀ (w : World) (active : Bool) (sequence exclusions : List String) (orig : Originals)
          (w' : World) (o' : Originals) (r : Bool),
        scaleTarget w active sequence exclusions orig true = .done w' o' r → r = true)
    ∧ (∀ (configs : List ConfigRec) (active : Bool) (st : GIter) (stageReady : Bool)
          (ns : String) (st' : GIter) (sr' : Bool),
        (nsGet st.nsWorlds ns).listFails = false →
        processNs configs active true st stageReady ns = some (st', sr') →
        (sr' = (stageReady &&
            (active && computePhase (nsGet st'.nsWorlds ns) active = "ScaledUp"
              || (!active && computePhase (nsGet st'.nsWorlds ns) active = "ScaledDown"))))
          ∧ ((active && computePhase (nsGet st'.nsWorlds ns) active = "ScaledUp"
              || (!active && computePhase (nsGet st'.nsWorlds ns) active = "ScaledDown")) =
                true →
              st'.blocking = st.blocking))
    ∧ (groupReconcile ⟨⟨0, 0⟩, fun _ => none⟩ []
          ⟨["a", "b"], ["a", "b"], some false, []⟩ ⟨[], "ScalingDown", 0⟩ 61
          [("a", ⟨[⟨"web", some 3, 3, 3⟩], [], false⟩),
            ("b", ⟨[⟨"app", some 0, 3, 3⟩], [], false⟩)]).map
        (fun r => (r.timeoutPassed, r.stoppedAt, nsGet r.nsWorlds "a",
          oLookup r.originals "a/*v1.Deployment/web", r.events)) =
      some (true, none, ⟨[⟨"web", some 0, 3, 3⟩], [], false⟩, some 3,
        [GEvent.scalingProgress 2 2, GEvent.phaseTransition "ScalingDown" "ScaledDown"])
    ∧ (groupReconcile ⟨⟨0, 0⟩, fun _ => none⟩ []
          ⟨["a", "b"], ["a", "b"], some false, []⟩ ⟨[], "ScalingDown", 0⟩ 10
          [("a", ⟨[⟨"web", some 3, 3, 3⟩], [], false⟩),
            ("b", ⟨[⟨"app", some 0, 3, 3⟩], [], false⟩)]).map
        (fun r => (r.timeoutPassed, r.stoppedAt, nsGet r.nsWorlds "a",
          oLookup r.originals "a/*v1.Deployment/web", r.events)) =
      some (false, some 0, ⟨[⟨"web", some 3, 3, 3⟩], [], false⟩, none,
        [GEvent.scalingProgress 1 1])
    ∧ (groupReconcile ⟨⟨0, 0⟩, fun _ => none⟩ []
          ⟨["a", "b"], ["a", "b"], some true, []⟩ ⟨[], "ScalingUp", 0⟩ 61
          [("a", ⟨[⟨"app", some 1, 0, 0⟩], [], false⟩),
            ("b", ⟨[⟨"web", some 0, 0, 0⟩], [], false⟩)]).map
        (fun r => (r.timeoutPassed, r.stoppedAt, nsGet r.nsWorlds "b", r.events)) =
      some (true, some 0, ⟨[⟨"web", some 0, 0, 0⟩], [], false⟩,
        [GEvent.scalingTimeout 1 ["a"]]) := by
  refine ⟨?_, ?_, ?_, by rfl, by rfl, by rfl⟩
  · intro phase elapsed hp he
    rcases hp with hp | hp <;> simp [computeTimeoutPassed, hp, he]
  · intro w active sequence exclusions orig w' o' r h
    simp only [scaleTarget] at h
    by_cases hlf : w.listFails = true
    · rw [if_pos hlf] at h
      exact absurd h (by simp)
    · rw [if_neg hlf] at h
      exact runGroups_timeout_ready active _ w orig w' o' r h
  · intro configs active st stageReady ns st' sr' hlf h
    simp only [processNs] at h
    cases hsc : scaleTarget (nsGet st.nsWorlds ns) active (inheritFor configs ns).2
        (inheritFor configs ns).1 (takePrefixed st.originals (ns ++ "/")) true with
    | crash => rw [hsc] at h; exact absurd h (by simp)
    | listErr =>
      exfalso
      simp only [scaleTarget] at hsc
      rw [if_neg (by simp [hlf])] at hsc
      exact runGroups_not_listErr active true _ _ _ hsc
    | done w' updated nsReady =>
      have hr : nsReady = true := by
        have hsc' := hsc
        simp only [scaleTarget] at hsc'
        rw [if_neg (by simp [hlf])] at hsc'
        exact runGroups_timeout_ready active _ _ _ _ _ _ hsc'
      subst hr
      rw [hsc] at h
      dsimp only at h
      by_cases hph : ((active && computePhase w' active = "ScaledUp")
          || (!active && computePhase w' active = "ScaledDown")) = true
      · rw [if_pos hph] at h
        simp only [Option.some.injEq, Prod.mk.injEq] at h
        obtain ⟨rfl, rfl⟩ := h
        constructor
        · dsimp only
          rw [nsGet_nsSet_self, hph]
        · intro _
          rfl
      · rw [if_neg hph] at h
        simp only [Option.some.injEq, Prod.mk.injEq] at h
        obtain ⟨rfl, rfl⟩ := h
        have hph' : ((active && computePhase w' active = "ScaledUp")
            || (!active && computePhase w' active = "ScaledDown")) = false := by
          simpa using hph
        constructor
        · dsimp only
          rw [nsGet_nsSet_self, hph', Bool.and_false]
        · intro hc
          dsimp only at hc
          rw [nsGet_nsSet_self] at hc
          exact absurd hc hph

/-- Witness for the amended C5: the timeout fires at 61 s in
`ScalingDown`; a bypassed `ScaleTarget` on the stuck namespace (desired
counts 0, statuses lingering) reports completion; and the per-namespace
barrier outcome equals the `ComputePhase` target-phase check, with the
namespace not marked blocking. -/
theorem c5_timeout_bypass_witness :
    computeTimeoutPassed "ScalingDown" 61 = true
    ∧ (true : Bool) = true
    ∧ (((true : Bool) = (true &&
          (false && computePhase (nsGet (GIter.mk
                [("b", ⟨[⟨"app", some 0, 3, 3⟩], [], false⟩)] [] true 1 1 1 []).nsWorlds
              "b") false = "ScaledUp"
            || (!false && computePhase (nsGet (GIter.mk
                [("b", ⟨[⟨"app", some 0, 3, 3⟩], [], false⟩)] [] true 1 1 1 []).nsWorlds
              "b") false = "ScaledDown"))))
        ∧ ((false && computePhase (nsGet (GIter.mk
                [("b", ⟨[⟨"app", some 0, 3, 3⟩], [], false⟩)] [] true 1 1 1 []).nsWorlds
              "b") false = "ScaledUp"
            || (!false && computePhase (nsGet (GIter.mk
                [("b", ⟨[⟨"app", some 0, 3, 3⟩], [], false⟩)] [] true 1 1 1 []).nsWorlds
              "b") false = "ScaledDown")) = true →
            (GIter.mk [("b", ⟨[⟨"app", some 0, 3, 3⟩], [], false⟩)] [] true 1 1 1
              []).blocking =
              (GIter.mk [("b", ⟨[⟨"app", some 0, 3, 3⟩], [], false⟩)] [] true 0 0 0
                []).blocking)) :=
  ⟨c5_timeout_bypass_amended.1 "ScalingDown" 61 (Or.inr rfl) (by decide),
    c5_timeout_bypass_amended.2.1 ⟨[⟨"app", some 0, 3, 3⟩], [], false⟩ false [] [] []
      ⟨[⟨"app", some 0, 3, 3⟩], [], false⟩ [] true (by decide),
    c5_timeout_bypass_amended.2.2.1 [] false
      ⟨[("b", ⟨[⟨"app", some 0, 3, 3⟩], [], false⟩)], [], true, 0, 0, 0, []⟩ true "b"
      ⟨[("b", ⟨[⟨"app", some 0, 3, 3⟩], [], false⟩)], [], true, 1, 1, 1, []⟩ true
      rfl (by decide)⟩

/-! ### Claim C1: round-trip restoration

The development below characterises what one `ScaleTarget` run does to
each stored workload (under the cluster invariants: names are unique per
kind, desired counts are present and non-negative) and then iterates runs
with `converge` steps in between, proving that a converged scale-down
records every positive desired count and a converged scale-up restores
it. -/

theorem oLookup_oInsert_self (m : Originals) (k : String) (v : Int) :
    oLookup (oInsert m k v) k = some v := by
  simp [oInsert, oLookup]

theorem oLookup_none_filter (m : Originals) (p : String × Int → Bool) (k : String)
    (h : oLookup m k = none) : oLookup (m.filter p) k = none := by
  induction m with
  | nil => rfl
  | cons q rest ih =>
    by_cases hq : q.1 = k
    · simp [oLookup, hq] at h
    · simp only [oLookup, hq, if_neg] at h
      by_cases hp : p q
      · simp [List.filter, hp, oLookup, hq, ih h]
      · simp [List.filter, hp, ih h]

theorem oLookup_oErase_self (m : Originals) (k : String) :
    oLookup (oErase m k) k = none := by
  induction m with
  | nil => rfl
  | cons q rest ih =>
    by_cases hq : q.1 = k
    · simp only [oErase, List.filter, hq]
      simpa [oErase] using ih
    · simp only [oErase, List.filter] at ih ⊢
      simp [hq, oLookup, ih]

theorem oLookup_foldl_oErase_none (k : String) :
    ∀ (objs : List (Kind × Workload)) (m : Originals), oLookup m k = none →
      oLookup (objs.foldl (fun m ko => oErase m (keyOf ko.1 ko.2.name)) m) k = none := by
  intro objs
  induction objs with
  | nil => intro m h; exact h
  | cons ko rest ih =>
    intro m h
    exact ih _ (oLookup_none_filter m _ k h)

theorem oLookup_foldl_oErase_mem (k : String) :
    ∀ (objs : List (Kind × Workload)) (m : Originals),
      (∃ ko ∈ objs, keyOf ko.1 ko.2.name = k) →
      oLookup (objs.foldl (fun m ko => oErase m (keyOf ko.1 ko.2.name)) m) k = none := by
  intro objs
  induction objs with
  | nil => rintro m ⟨ko, hmem, _⟩; simp at hmem
  | cons ko0 rest ih =>
    rintro m ⟨ko, hmem, hkey⟩
    rcases List.mem_cons.mp hmem with rfl | hmem'
    · simp only [List.foldl_cons]
      exact oLookup_foldl_oErase_none k rest _ (hkey ▸ oLookup_oErase_self m k)
    · exact ih _ ⟨ko, hmem', hkey⟩

theorem find?_map_namePreserving (f : Workload → Workload) (hf : ∀ o, (f o).name = o.name)
    (n : String) :
    ∀ (l : List Workload),
      (l.map f).find? (fun o => o.name = n) = (l.find? (fun o => o.name = n)).map f := by
  intro l
  induction l with
  | nil => rfl
  | cons o rest ih =>
    by_cases ho : o.name = n
    · simp [List.find?, hf, ho]
    · simp [List.find?, hf, ho, ih]

theorem get_setSpec_same (w : World) (k : Kind) (n' : String) (c : Int) (n : String) :
    (w.setSpec k n' c).get k n =
      (w.get k n).map fun o =>
        if o.name = n' then { o with specReplicas := some c } else o := by
  cases k <;>
    exact find?_map_namePreserving _ (fun o => by by_cases h : o.name = n' <;> simp [h]) n _

theorem get_setSpec_diff (w : World) (k k' : Kind) (n n' : String) (c : Int) (h : ¬k = k') :
    (w.setSpec k' n' c).get k n = w.get k n := by
  cases k <;> cases k' <;> first | exact absurd rfl h | rfl

theorem get_converge (w : World) (k : Kind) (n : String) :
    (converge w).get k n = (w.get k n).map convergeOne := by
  cases k <;>
    exact find?_map_namePreserving _
      (fun o => by cases ho : o.specReplicas <;> simp [convergeOne, ho]) n _

theorem find?_nodup_mem (l : List Workload) (hl : (l.map (·.name)).Nodup) (o : Workload)
    (hmem : o ∈ l) : l.find? (fun x => x.name = o.name) = some o := by
  induction l with
  | nil => simp at hmem
  | cons q rest ih =>
    simp only [List.map_cons, List.nodup_cons] at hl
    rcases List.mem_cons.mp hmem with rfl | hmem'
    · simp [List.find?]
    · have hq : ¬q.name = o.name := by
        intro hc
        exact hl.1 (hc ▸ List.mem_map_of_mem (·.name) hmem')
      simp [List.find?, hq, ih hl.2 hmem']

theorem readyOne_congr (w w' : World) (k : Kind) (o : Workload) (a : Bool)
    (h : w'.get k o.name = w.get k o.name) : readyOne w' k o a = readyOne w k o a := by
  simp [readyOne, h]

theorem readyOne_false_statuses (w w' : World) (k : Kind) (o : Workload)
    (h : (((w'.get k o.name).getD o).statusReplicas = ((w.get k o.name).getD o).statusReplicas)
      ∧ ((w'.get k o.name).getD o).statusReadyReplicas =
          ((w.get k o.name).getD o).statusReadyReplicas) :
    readyOne w' k o false = readyOne w k o false := by
  simp [readyOne, h.1, h.2]

/-- Cluster well-formedness: workload names are unique per kind and the
client listing succeeds. -/
def wfWorld (w : World) : Prop :=
  (w.deployments.map (·.name)).Nodup ∧ (w.statefulSets.map (·.name)).Nodup
    ∧ w.listFails = false

/-- Every stored workload has a present, non-negative desired count (the
Kubernetes defaulting and validation invariant). -/
def specsSome (w : World) : Prop :=
  ∀ (k : Kind) (n : String) (o : Workload), w.get k n = some o →
    ∃ r, o.specReplicas = some r ∧ 0 ≤ r

/-- A settled cluster: observed total and ready counts equal the desired
count. -/
def convergedW (w : World) : Prop :=
  ∀ (k : Kind) (n : String) (o : Workload) (r : Int), w.get k n = some o →
    o.specReplicas = some r → o.statusReplicas = r ∧ o.statusReadyReplicas = r

/-- Recorded original counts are positive (they are recorded only from a
positive current count). -/
def origPos (m : Originals) : Prop := ∀ p ∈ m, 0 < p.2

theorem mem_of_oLookup (m : Originals) (k : String) (v : Int) (h : oLookup m k = some v) :
    (k, v) ∈ m := by
  induction m with
  | nil => simp [oLookup] at h
  | cons q rest ih =>
    by_cases hq : q.1 = k
    · simp only [oLookup, hq, if_pos] at h
      injection h with h2
      subst h2
      subst hq
      exact (by simp : (q.1, q.2) ∈ q :: rest)
    · simp only [oLookup, hq, if_neg, not_false_iff] at h
      exact List.mem_cons_of_mem _ (ih h)

theorem origPos_filter (m : Originals) (p : String × Int → Bool) (h : origPos m) :
    origPos (m.filter p) := fun q hq => h q (List.mem_of_mem_filter hq)

theorem origPos_oInsert (m : Originals) (k : String) (v : Int) (hv : 0 < v) (h : origPos m) :
    origPos (oInsert m k v) := by
  intro q hq
  rcases List.mem_cons.mp hq with rfl | hq'
  · exact hv
  · exact origPos_filter m _ h q hq'

theorem origPos_foldl_oErase (objs : List (Kind × Workload)) :
    ∀ (m : Originals), origPos m →
      origPos (objs.foldl (fun m ko => oErase m (keyOf ko.1 ko.2.name)) m) := by
  induction objs with
  | nil => intro m h; exact h
  | cons ko rest ih => intro m h; exact ih _ (origPos_filter m _ h)

theorem names_map_eq (f : Workload → Workload) (hf : ∀ o, (f o).name = o.name)
    (l : List Workload) : (l.map f).map (·.name) = l.map (·.name) := by
  rw [List.map_map]
  exact List.map_congr_left fun o _ => hf o

theorem wf_setSpec (w : World) (k : Kind) (n : String) (c : Int) (h : wfWorld w) :
    wfWorld (w.setSpec k n c) := by
  obtain ⟨h1, h2, h3⟩ := h
  have hf : ∀ o : Workload,
      (if o.name = n then { o with specReplicas := some c } else o).name = o.name := by
    intro o; by_cases ho : o.name = n <;> simp [ho]
  cases k
  · refine ⟨?_, h2, h3⟩
    have he : (w.setSpec .deployment n c).deployments =
        w.deployments.map
          (fun o => if o.name = n then { o with specReplicas := some c } else o) := rfl
    rw [he, names_map_eq _ hf]
    exact h1
  · refine ⟨h1, ?_, h3⟩
    have he : (w.setSpec .statefulSet n c).statefulSets =
        w.statefulSets.map
          (fun o => if o.name = n then { o with specReplicas := some c } else o) := rfl
    rw [he, names_map_eq _ hf]
    exact h2

theorem wf_converge (w : World) (h : wfWorld w) : wfWorld (converge w) := by
  obtain ⟨h1, h2, h3⟩ := h
  have hf : ∀ o : Workload, (convergeOne o).name = o.name := by
    intro o; cases ho : o.specReplicas <;> simp [convergeOne, ho]
  refine ⟨?_, ?_, h3⟩
  · have he : (converge w).deployments = w.deployments.map convergeOne := rfl
    rw [he, names_map_eq _ hf]
    exact h1
  · have he : (converge w).statefulSets = w.statefulSets.map convergeOne := rfl
    rw [he, names_map_eq _ hf]
    exact h2

theorem convergedW_converge (w : World) : convergedW (converge w) := by
  intro k n o r hget hspec
  rw [get_converge] at hget
  cases hg : w.get k n with
  | none => rw [hg] at hget; exact absurd hget (by simp)
  | some o0 =>
    rw [hg] at hget
    have hget' : convergeOne o0 = o := by simpa using hget
    subst hget'
    cases h0 : o0.specReplicas with
    | none => simp [convergeOne, h0] at hspec
    | some r0 =>
      simp only [convergeOne, h0] at hspec ⊢
      simp only [Option.some.injEq] at hspec
      simp [hspec]

theorem specsSome_converge (w : World) (h : specsSome w) : specsSome (converge w) := by
  intro k n o hget
  rw [get_converge] at hget
  cases hg : w.get k n with
  | none => rw [hg] at hget; exact absurd hget (by simp)
  | some o0 =>
    rw [hg] at hget
    have hget' : convergeOne o0 = o := by simpa using hget
    subst hget'
    obtain ⟨r, hr, hpos⟩ := h k n o0 hg
    refine ⟨r, ?_, hpos⟩
    simp [convergeOne, hr]

theorem mem_scalable_get (w : World) (excl : List String) (hwf : wfWorld w)
    (ko : Kind × Workload) (h : ko ∈ scalableIn w excl) :
    w.get ko.1 ko.2.name = some ko.2 := by
  simp only [scalableIn, List.mem_append, List.mem_map] at h
  rcases h with ⟨o, ho, rfl⟩ | ⟨o, ho, rfl⟩
  · exact find?_nodup_mem _ hwf.1 o (List.mem_of_mem_filter ho)
  · exact find?_nodup_mem _ hwf.2.1 o (List.mem_of_mem_filter ho)

theorem get_mem_scalable (w : World) (excl : List String) (k : Kind) (n : String)
    (o : Workload) (h : w.get k n = some o) (hne : isExcluded n excl = false) :
    (k, o) ∈ scalableIn w excl ∧ o.name = n := by
  have hmem : o ∈ w.kindList k := List.mem_of_find?_eq_some h
  have hname : o.name = n := by simpa using List.find?_some h
  refine ⟨?_, hname⟩
  have hfil : o ∈ (w.kindList k).filter (fun o => !isExcluded o.name excl) := by
    rw [List.mem_filter]
    exact ⟨hmem, by simp [hname, hne]⟩
  cases k
  · exact List.mem_append_left _ (List.mem_map_of_mem _ hfil)
  · exact List.mem_append_right _ (List.mem_map_of_mem _ hfil)

theorem sortedInsert_perm (n : Nat) : ∀ (l : List Nat), (sortedInsert n l).Perm (n :: l) := by
  intro l
  induction l with
  | nil => simp [sortedInsert]
  | cons m rest ih =>
    by_cases h : n ≤ m
    · simp [sortedInsert, h]
    · simp only [sortedInsert, h, if_neg, not_false_iff]
      exact List.Perm.trans (List.Perm.cons m ih) (List.Perm.swap n m rest)

theorem sortNats_perm : ∀ (l : List Nat), (sortNats l).Perm l := by
  intro l
  induction l with
  | nil => simp [sortNats]
  | cons x rest ih =>
    have he : sortNats (x :: rest) = sortedInsert x (sortNats rest) := rfl
    rw [he]
    exact List.Perm.trans (sortedInsert_perm x (sortNats rest)) (List.Perm.cons x ih)

theorem prioritiesOf_nodup (objs : List (Kind × Workload)) (seq : List String) (a : Bool) :
    (prioritiesOf objs seq a).Nodup := by
  have hbase : (sortNats ((objs.map fun ko => getSequenceIndex ko.2.name seq).dedup)).Nodup :=
    ((sortNats_perm _).nodup_iff).mpr (List.nodup_dedup _)
  simp only [prioritiesOf]
  by_cases ha : a = true
  · rw [if_pos ha]
    exact List.nodup_reverse.mpr hbase
  · rw [if_neg ha]
    exact hbase

theorem mem_prioritiesOf (objs : List (Kind × Workload)) (seq : List String) (a : Bool)
    (ko : Kind × Workload) (h : ko ∈ objs) :
    getSequenceIndex ko.2.name seq ∈ prioritiesOf objs seq a := by
  have hbase : getSequenceIndex ko.2.name seq ∈
      sortNats ((objs.map fun ko => getSequenceIndex ko.2.name seq).dedup) := by
    rw [(sortNats_perm _).mem_iff, List.mem_dedup]
    exact List.mem_map_of_mem _ h
  simp only [prioritiesOf]
  by_cases ha : a = true
  · rw [if_pos ha, List.mem_reverse]; exact hbase
  · rw [if_neg ha]; exact hbase

theorem mem_groupFor (objs : List (Kind × Workload)) (seq : List String) (p : Nat)
    (ko : Kind × Workload) :
    ko ∈ groupFor objs seq p ↔ ko ∈ objs ∧ getSequenceIndex ko.2.name seq = p := by
  simp [groupFor, List.mem_filter]

theorem keyOf_injective_on_names (k : Kind) : Function.Injective (fun n => keyOf k n) := by
  intro n n' h
  exact ((keyOf_eq_iff k k n n').mp h).2

theorem scalable_keys_nodup (w : World) (excl : List String) (hwf : wfWorld w) :
    ((scalableIn w excl).map fun ko => keyOf ko.1 ko.2.name).Nodup := by
  obtain ⟨h1, h2, _⟩ := hwf
  have hd : ((w.deployments.filter fun o => !isExcluded o.name excl).map (·.name)).Nodup :=
    h1.sublist ((List.filter_sublist _).map _)
  have hs : ((w.statefulSets.filter fun o => !isExcluded o.name excl).map (·.name)).Nodup :=
    h2.sublist ((List.filter_sublist _).map _)
  have hkd := hd.map (keyOf_injective_on_names Kind.deployment)
  have hks := hs.map (keyOf_injective_on_names Kind.statefulSet)
  rw [List.map_map] at hkd hks
  simp only [scalableIn, List.map_append, List.map_map]
  refine List.Nodup.append ?_ ?_ ?_
  · exact hkd
  · exact hks
  · rw [List.disjoint_left]
    intro a ha hb
    simp only [List.mem_map, Function.comp] at ha hb
    obtain ⟨o, _, rfl⟩ := ha
    obtain ⟨o', _, heq⟩ := hb
    exact absurd ((keyOf_eq_iff _ _ _ _).mp heq).1 (by simp)

/-- What one scale-down `execObj` does: nothing when the current count is
already 0, otherwise a write to 0 with the original recorded when the
current count is positive. -/
theorem execObj_down (w : World) (orig : Originals) (k0 : Kind) (o0 : Workload)
    (st' : World × Originals) (hx : execObj false (w, orig) (k0, o0) = some st') :
    ∃ cur, getReplicas o0 = some cur ∧
      (if cur = 0 then st' = (w, orig)
        else st'.1 = w.setSpec k0 o0.name 0
          ∧ st'.2 = (if cur > 0 then oInsert orig (keyOf k0 o0.name) cur else orig)) := by
  simp only [execObj] at hx
  rw [if_pos (show (!false : Bool) = true from rfl)] at hx
  dsimp only at hx
  cases hC : getReplicas o0 with
  | none => rw [hC] at hx; exact absurd hx (by simp)
  | some cur =>
    rw [hC] at hx
    dsimp only at hx
    refine ⟨cur, rfl, ?_⟩
    by_cases hcz : cur = 0
    · rw [if_pos hcz]
      rw [if_neg (by simp [hcz])] at hx
      exact (Option.some.inj hx).symm
    · rw [if_neg hcz]
      rw [if_pos (by simp [hcz])] at hx
      by_cases hpos : cur > 0
      · rw [if_pos (by simp [hpos])] at hx
        have hx' := (Option.some.inj hx).symm
        subst hx'
        exact ⟨rfl, by rw [if_pos hpos]⟩
      · rw [if_neg (by simp [hpos])] at hx
        have hx' := (Option.some.inj hx).symm
        subst hx'
        exact ⟨rfl, by rw [if_neg hpos]⟩

/-- What one scale-up `execObj` does: the original-replicas map is
untouched, and the desired count becomes the recorded original (or the
current count when positive, else 1) when it differs. -/
theorem execObj_up (w : World) (orig : Originals) (k0 : Kind) (o0 : Workload)
    (st' : World × Originals) (hx : execObj true (w, orig) (k0, o0) = some st') :
    st'.2 = orig ∧
    ∃ cur target, getReplicas o0 = some cur
      ∧ target = (match oLookup orig (keyOf k0 o0.name) with
          | some t => t
          | none => if cur > 0 then cur else 1)
      ∧ st'.1 = (if cur = target then w else w.setSpec k0 o0.name target) := by
  simp only [execObj] at hx
  rw [if_neg (show ¬(!true : Bool) = true by simp)] at hx
  cases hL : oLookup orig (keyOf k0 o0.name) with
  | some t =>
    rw [hL] at hx
    dsimp only at hx
    cases hC : getReplicas o0 with
    | none => rw [hC] at hx; exact absurd hx (by simp)
    | some cur =>
      rw [hC] at hx
      dsimp only at hx
      by_cases hct : cur = t
      · rw [if_neg (by simp [hct])] at hx
        have hx' := (Option.some.inj hx).symm
        subst hx'
        exact ⟨rfl, cur, t, rfl, by simp [hL], by rw [if_pos hct]⟩
      · rw [if_pos (by simp [hct])] at hx
        have hx' := (Option.some.inj hx).symm
        subst hx'
        refine ⟨?_, cur, t, rfl, by simp [hL], by rw [if_neg hct]⟩
        show (if (!true && decide (cur > 0)) = true then oInsert orig (keyOf k0 o0.name) cur
            else orig) = orig
        rw [if_neg (by simp)]
  | none =>
    rw [hL] at hx
    dsimp only at hx
    cases hC : getReplicas o0 with
    | none => rw [hC] at hx; exact absurd hx (by simp)
    | some cur =>
      rw [hC] at hx
      dsimp only at hx
      by_cases hct : cur = (if cur > 0 then cur else 1)
      · rw [if_neg (by simpa using hct)] at hx
        have hx' := (Option.some.inj hx).symm
        subst hx'
        exact ⟨rfl, cur, (if cur > 0 then cur else 1), rfl, by simp [hL], by rw [if_pos hct]⟩
      · rw [if_pos (by simp [hct])] at hx
        have hx' := (Option.some.inj hx).symm
        subst hx'
        refine ⟨?_, cur, (if cur > 0 then cur else 1), rfl, by simp [hL], by rw [if_neg hct]⟩
        show (if (!true && decide (cur > 0)) = true
            then oInsert orig (keyOf k0 o0.name) cur else orig) = orig
        rw [if_neg (by simp)]

theorem keyOf_ne_of_pair_ne (k k' : Kind) (n n' : String) (h : ¬(k' = k ∧ n' = n)) :
    ¬keyOf k n = keyOf k' n' := by
  intro hc
  obtain ⟨h1, h2⟩ := (keyOf_eq_iff k k' n n').mp hc
  exact h ⟨h1.symm, h2.symm⟩

theorem step_untouched_down (w : World) (orig : Originals) (k0 : Kind) (o0 : Workload)
    (w2 : World) (orig2 : Originals) (cur0 : Int)
    (hcase : if cur0 = 0 then ((w2, orig2) : World × Originals) = (w, orig)
      else w2 = w.setSpec k0 o0.name 0
        ∧ orig2 = (if cur0 > 0 then oInsert orig (keyOf k0 o0.name) cur0 else orig))
    (k : Kind) (n : String) (hne : ¬(k0 = k ∧ o0.name = n)) :
    w2.get k n = w.get k n ∧ oLookup orig2 (keyOf k n) = oLookup orig (keyOf k n) := by
  have hkne : ¬keyOf k n = keyOf k0 o0.name := keyOf_ne_of_pair_ne k k0 n o0.name hne
  by_cases hz : cur0 = 0
  · rw [if_pos hz] at hcase
    have h1 : w2 = w := congrArg Prod.fst hcase
    have h2 : orig2 = orig := congrArg Prod.snd hcase
    rw [h1, h2]
    exact ⟨rfl, rfl⟩
  · rw [if_neg hz] at hcase
    obtain ⟨hw, ho⟩ := hcase
    subst hw
    subst ho
    refine ⟨get_setSpec_untouched w k k0 n o0.name 0 hne, ?_⟩
    by_cases hp : cur0 > 0
    · rw [if_pos hp]
      exact oLookup_oInsert_ne orig (keyOf k0 o0.name) (keyOf k n) cur0 hkne
    · rw [if_neg hp]

/-- Per-member effect of acting on one priority group while scaling down:
each member with a non-zero current count is written to 0 with its
original recorded when positive; a member already at 0 is untouched. -/
theorem execGroup_down_member :
    ∀ (objs : List (Kind × Workload)) (w : World) (orig : Originals) (w1 : World)
      (o1 : Originals),
      execGroup false objs (w, orig) = some (w1, o1) →
      ((objs.map fun ko => keyOf ko.1 ko.2.name).Nodup) →
      (∀ ko ∈ objs, w.get ko.1 ko.2.name = some ko.2) →
      ∀ ko ∈ objs, ∃ cur, getReplicas ko.2 = some cur ∧
        (if cur = 0
          then w1.get ko.1 ko.2.name = some ko.2
            ∧ oLookup o1 (keyOf ko.1 ko.2.name) = oLookup orig (keyOf ko.1 ko.2.name)
          else w1.get ko.1 ko.2.name = some { ko.2 with specReplicas := some 0 }
            ∧ oLookup o1 (keyOf ko.1 ko.2.name) =
                (if cur > 0 then some cur else oLookup orig (keyOf ko.1 ko.2.name))) := by
  intro objs
  induction objs with
  | nil => intro w orig w1 o1 h _ _ ko hko; simp at hko
  | cons ko0 rest ih =>
    intro w orig w1 o1 h hnd hsnap ko hko
    obtain ⟨k0, o0⟩ := ko0
    simp only [execGroup, List.foldlM_cons] at h
    simp only [List.map_cons, List.nodup_cons] at hnd
    cases hx : execObj false (w, orig) (k0, o0) with
    | none => rw [hx] at h; exact absurd h (by simp)
    | some st1 =>
      rw [hx] at h
      have h' : execGroup false rest st1 = some (w1, o1) := h
      obtain ⟨w2, orig2⟩ := st1
      obtain ⟨cur0, hcur0, hcase⟩ := execObj_down w orig k0 o0 (w2, orig2) hx
      have hkeyne : ∀ ko' ∈ rest, ¬keyOf k0 o0.name = keyOf ko'.1 ko'.2.name := by
        intro ko' hk' hceq
        exact hnd.1 (hceq ▸ List.mem_map_of_mem _ hk')
      rcases List.mem_cons.mp hko with rfl | hko'
      · -- the head member itself
        have hrestne : ∀ ko' ∈ rest, ¬(ko'.1 = k0 ∧ ko'.2.name = o0.name) := by
          intro ko' hk' ⟨he1, he2⟩
          exact hkeyne ko' hk' (by rw [he1, he2])
        have hfin := execGroup_untouched false rest (w2, orig2) (w1, o1) h' k0 o0.name hrestne
        refine ⟨cur0, hcur0, ?_⟩
        by_cases hz : cur0 = 0
        · rw [if_pos hz]
          rw [if_pos hz] at hcase
          have hw2 : w2 = w := congrArg Prod.fst hcase
          have ho2 : orig2 = orig := congrArg Prod.snd hcase
          rw [hfin.1, hfin.2, hw2, ho2]
          exact ⟨hsnap (k0, o0) (by simp), rfl⟩
        · rw [if_neg hz]
          rw [if_neg hz] at hcase
          obtain ⟨hw2, ho2⟩ := hcase
          constructor
          · rw [hfin.1, hw2, get_setSpec_same, hsnap (k0, o0) (by simp)]
            simp
          · rw [hfin.2, ho2]
            by_cases hp : cur0 > 0
            · rw [if_pos hp, if_pos hp]
              exact oLookup_oInsert_self orig (keyOf k0 o0.name) cur0
            · rw [if_neg hp, if_neg hp]
      · -- a member of the tail
        have hne : ¬(k0 = ko.1 ∧ o0.name = ko.2.name) := by
          intro hpair
          exact hkeyne ko hko' (by rw [hpair.1, hpair.2])
        have hstep := step_untouched_down w orig k0 o0 w2 orig2 cur0 hcase ko.1 ko.2.name hne
        have hsnap2 : ∀ ko' ∈ rest, w2.get ko'.1 ko'.2.name = some ko'.2 := by
          intro ko' hk'
          have hne' : ¬(k0 = ko'.1 ∧ o0.name = ko'.2.name) := by
            intro hpair
            exact hkeyne ko' hk' (by rw [hpair.1, hpair.2])
          rw [(step_untouched_down w orig k0 o0 w2 orig2 cur0 hcase ko'.1 ko'.2.name hne').1]
          exact hsnap ko' (List.mem_cons_of_mem _ hk')
        obtain ⟨cur, hcur, hres⟩ := ih w2 orig2 w1 o1 h' hnd.2 hsnap2 ko hko'
        refine ⟨cur, hcur, ?_⟩
        by_cases hz : cur = 0
        · rw [if_pos hz]
          rw [if_pos hz] at hres
          exact ⟨hres.1, hres.2.trans hstep.2⟩
        · rw [if_neg hz]
          rw [if_neg hz] at hres
          refine ⟨hres.1, ?_⟩
          by_cases hp : cur > 0
          · rw [if_pos hp]
            rw [if_pos hp] at hres
            exact hres.2
          · rw [if_neg hp]
            rw [if_neg hp] at hres
            exact hres.2.trans hstep.2

/-- Per-member effect of acting on one priority group while scaling up:
the original-replicas map is untouched, and each member's desired count
becomes its recorded original (or current-if-positive, else 1). -/
theorem execGroup_up_member :
    ∀ (objs : List (Kind × Workload)) (w : World) (orig : Originals) (w1 : World)
      (o1 : Originals),
      execGroup true objs (w, orig) = some (w1, o1) →
      ((objs.map fun ko => keyOf ko.1 ko.2.name).Nodup) →
      (∀ ko ∈ objs, w.get ko.1 ko.2.name = some ko.2) →
      o1 = orig ∧
      (∀ (k : Kind) (n : String), (∀ ko ∈ objs, ¬(ko.1 = k ∧ ko.2.name = n)) →
        w1.get k n = w.get k n) ∧
      ∀ ko ∈ objs, ∃ cur target, getReplicas ko.2 = some cur
        ∧ target = (match oLookup orig (keyOf ko.1 ko.2.name) with
            | some t => t
            | none => if cur > 0 then cur else 1)
        ∧ w1.get ko.1 ko.2.name =
            some (if cur = target then ko.2 else { ko.2 with specReplicas := some target }) := by
  intro objs
  induction objs with
  | nil =>
    intro w orig w1 o1 h _ _
    have h2 : (some (w, orig) : Option (World × Originals)) = some (w1, o1) := h
    have h3 := Option.some.inj h2
    have hw : w = w1 := congrArg Prod.fst h3
    have ho : orig = o1 := congrArg Prod.snd h3
    refine ⟨ho.symm, ?_, ?_⟩
    · intro k n _
      rw [hw]
    · intro ko hko; simp at hko
  | cons ko0 rest ih =>
    intro w orig w1 o1 h hnd hsnap
    obtain ⟨k0, o0⟩ := ko0
    simp only [execGroup, List.foldlM_cons] at h
    simp only [List.map_cons, List.nodup_cons] at hnd
    cases hx : execObj true (w, orig) (k0, o0) with
    | none => rw [hx] at h; exact absurd h (by simp)
    | some st1 =>
      rw [hx] at h
      have h' : execGroup true rest st1 = some (w1, o1) := h
      obtain ⟨w2, orig2⟩ := st1
      obtain ⟨ho2, cur0, target0, hcur0, htarget0, hw2⟩ := execObj_up w orig k0 o0 (w2, orig2) hx
      dsimp only at ho2 hw2
      have hkeyne : ∀ ko' ∈ rest, ¬keyOf k0 o0.name = keyOf ko'.1 ko'.2.name := by
        intro ko' hk' hceq
        exact hnd.1 (hceq ▸ List.mem_map_of_mem _ hk')
      have hw2_other : ∀ (k : Kind) (n : String), ¬(k0 = k ∧ o0.name = n) →
          w2.get k n = w.get k n := by
        intro k n hne
        rw [hw2]
        by_cases hct : cur0 = target0
        · rw [if_pos hct]
        · rw [if_neg hct]
          exact get_setSpec_untouched w k k0 n o0.name target0 hne
      have hsnap2 : ∀ ko' ∈ rest, w2.get ko'.1 ko'.2.name = some ko'.2 := by
        intro ko' hk'
        rw [hw2_other ko'.1 ko'.2.name (fun hpair => hkeyne ko' hk' (by rw [hpair.1, hpair.2]))]
        exact hsnap ko' (List.mem_cons_of_mem _ hk')
      obtain ⟨ho1, hother, hmem⟩ := ih w2 orig2 w1 o1 h' hnd.2 hsnap2
      rw [ho2] at hmem
      refine ⟨ho1.trans ho2, ?_, ?_⟩
      · intro k n hno
        rw [hother k n (fun ko' hk' => hno ko' (List.mem_cons_of_mem _ hk'))]
        exact hw2_other k n (by
          intro hpair
          exact hno (k0, o0) (by simp) ⟨hpair.1.symm ▸ rfl, hpair.2⟩)
      · intro ko hko
        rcases List.mem_cons.mp hko with rfl | hko'
        · refine ⟨cur0, target0, hcur0, htarget0, ?_⟩
          have hrestne : ∀ ko' ∈ rest, ¬(ko'.1 = k0 ∧ ko'.2.name = o0.name) := by
            intro ko' hk' ⟨he1, he2⟩
            exact hkeyne ko' hk' (by rw [he1, he2])
          rw [hother k0 o0.name hrestne, hw2]
          by_cases hct : cur0 = target0
          · rw [if_pos hct, if_pos hct]
            exact hsnap (k0, o0) (by simp)
          · rw [if_neg hct, if_neg hct, get_setSpec_same, hsnap (k0, o0) (by simp)]
            simp
        · exact hmem ko hko'

theorem groupFor_keys_nodup (S : List (Kind × Workload)) (seq : List String)
    (hSkeys : (S.map fun ko => keyOf ko.1 ko.2.name).Nodup) (p : Nat) :
    ((groupFor S seq p).map fun ko => keyOf ko.1 ko.2.name).Nodup :=
  hSkeys.sublist ((List.filter_sublist _).map _)

theorem groupFor_cross_ne (S : List (Kind × Workload)) (seq : List String)
    (hSkeys : (S.map fun ko => keyOf ko.1 ko.2.name).Nodup) (p p' : Nat) (hpp : ¬p = p')
    (ko : Kind × Workload) (hko : ko ∈ groupFor S seq p)
    (ko' : Kind × Workload) (hko' : ko' ∈ groupFor S seq p') :
    ¬(ko'.1 = ko.1 ∧ ko'.2.name = ko.2.name) := by
  rintro ⟨h1, h2⟩
  obtain ⟨hmem, hidx⟩ := (mem_groupFor S seq p ko).mp hko
  obtain ⟨hmem', hidx'⟩ := (mem_groupFor S seq p' ko').mp hko'
  have hkeq : keyOf ko'.1 ko'.2.name = keyOf ko.1 ko.2.name := by rw [h1, h2]
  have heq : ko' = ko := List.inj_on_of_nodup_map hSkeys hmem' hmem hkeq
  subst heq
  rw [hidx] at hidx'
  exact hpp hidx' 

/-- One scale-down run, per stored object: the desired count is either
left alone (with the original-replicas slot untouched) or written to 0
with the current count recorded when positive; statuses never change;
and a run reporting the target reached saw every listed group already at
observed zero. -/
theorem runGroups_down_object (S : List (Kind × Workload)) (seq : List String)
    (hSkeys : (S.map fun ko => keyOf ko.1 ko.2.name).Nodup) :
    ∀ (ps : List Nat) (w : World) (orig : Originals) (w' : World) (orig' : Originals)
      (rdy : Bool),
      ps.Nodup →
      runGroups false false (ps.map (groupFor S seq)) w orig = .done w' orig' rdy →
      (∀ p ∈ ps, ∀ ko ∈ groupFor S seq p, w.get ko.1 ko.2.name = some ko.2) →
      (∀ (k : Kind) (n : String) (o : Workload), w.get k n = some o →
        ∃ o', w'.get k n = some o'
          ∧ o'.statusReplicas = o.statusReplicas
          ∧ o'.statusReadyReplicas = o.statusReadyReplicas
          ∧ ((o'.specReplicas = o.specReplicas
                ∧ oLookup orig' (keyOf k n) = oLookup orig (keyOf k n))
            ∨ (∃ cur, o.specReplicas = some cur ∧ ¬cur = 0 ∧ o'.specReplicas = some 0
                ∧ oLookup orig' (keyOf k n) =
                    (if cur > 0 then some cur else oLookup orig (keyOf k n)))))
      ∧ (rdy = true → ∀ p ∈ ps, ∀ ko ∈ groupFor S seq p,
          readyOne w ko.1 ko.2 false = true) := by
  intro ps
  induction ps with
  | nil =>
    intro w orig w' orig' rdy _ hrun _
    simp only [List.map_nil, runGroups, ScaleOutcome.done.injEq] at hrun
    obtain ⟨rfl, rfl, rfl⟩ := hrun
    exact ⟨fun k n o h => ⟨o, h, rfl, rfl, Or.inl ⟨rfl, rfl⟩⟩, fun _ p hp => by simp at hp⟩
  | cons p0 ps ih =>
    intro w orig w' orig' rdy hnd hrun hsnap
    simp only [List.map_cons, runGroups] at hrun
    simp only [List.nodup_cons] at hnd
    have hsnap0 : ∀ ko ∈ groupFor S seq p0, w.get ko.1 ko.2.name = some ko.2 :=
      fun ko hko => hsnap p0 (by simp) ko hko
    by_cases hready0 : isGroupReady w (groupFor S seq p0) false
    · rw [if_pos hready0] at hrun
      obtain ⟨htrans, hready⟩ :=
        ih w orig w' orig' rdy hnd.2 hrun (fun p hp => hsnap p (by simp [hp]))
      refine ⟨htrans, ?_⟩
      intro hr p hp ko hko
      rcases List.mem_cons.mp hp with rfl | hp'
      · simp only [isGroupReady, List.all_eq_true] at hready0
        exact hready0 ko hko
      · exact hready hr p hp' ko hko
    · rw [if_neg hready0] at hrun
      cases hx : execGroup false (groupFor S seq p0) (w, orig) with
      | none => rw [hx] at hrun; exact absurd hrun (by simp)
      | some st1 =>
        rw [hx] at hrun
        obtain ⟨w1, o1⟩ := st1
        dsimp only at hrun
        have hnd0 := groupFor_keys_nodup S seq hSkeys p0
        have hmem := execGroup_down_member (groupFor S seq p0) w orig w1 o1 hx hnd0 hsnap0
        -- one-step transition, for every stored object
        have hstep : ∀ (k : Kind) (n : String) (o : Workload), w.get k n = some o →
            ∃ o1r, w1.get k n = some o1r
              ∧ o1r.statusReplicas = o.statusReplicas
              ∧ o1r.statusReadyReplicas = o.statusReadyReplicas
              ∧ ((o1r.specReplicas = o.specReplicas
                    ∧ oLookup o1 (keyOf k n) = oLookup orig (keyOf k n))
                ∨ (∃ cur, o.specReplicas = some cur ∧ ¬cur = 0 ∧ o1r.specReplicas = some 0
                    ∧ oLookup o1 (keyOf k n) =
                        (if cur > 0 then some cur else oLookup orig (keyOf k n)))) := by
          intro k n o hget
          by_cases hin : ∃ ko ∈ groupFor S seq p0, ko.1 = k ∧ ko.2.name = n
          · obtain ⟨ko, hko, hk1, hk2⟩ := hin
            have hgets : w.get k n = some ko.2 := by
              rw [← hk1, ← hk2]
              exact hsnap0 ko hko
            have hoeq : o = ko.2 := by
              rw [hget] at hgets
              exact Option.some.inj hgets
            subst hoeq
            obtain ⟨cur, hcur, hres⟩ := hmem ko hko
            by_cases hz : cur = 0
            · rw [if_pos hz] at hres
              refine ⟨ko.2, ?_, rfl, rfl, Or.inl ⟨rfl, ?_⟩⟩
              · rw [← hk1, ← hk2]; exact hres.1
              · rw [← hk1, ← hk2]; exact hres.2
            · rw [if_neg hz] at hres
              refine ⟨{ ko.2 with specReplicas := some 0 }, ?_, rfl, rfl,
                Or.inr ⟨cur, ?_, hz, rfl, ?_⟩⟩
              · rw [← hk1, ← hk2]; exact hres.1
              · exact hcur
              · rw [← hk1, ← hk2]; exact hres.2
          · have hno : ∀ ko ∈ groupFor S seq p0, ¬(ko.1 = k ∧ ko.2.name = n) := by
              intro ko hko hpair
              exact hin ⟨ko, hko, hpair⟩
            have hunt := execGroup_untouched false (groupFor S seq p0) (w, orig) (w1, o1) hx
              k n hno
            exact ⟨o, hunt.1.trans hget, rfl, rfl, Or.inl ⟨rfl, hunt.2⟩⟩
        by_cases hstop : (!isGroupReady w1 (groupFor S seq p0) false && !false) = true
        · rw [if_pos hstop] at hrun
          simp only [ScaleOutcome.done.injEq] at hrun
          obtain ⟨rfl, rfl, rfl⟩ := hrun
          refine ⟨hstep, ?_⟩
          intro hr
          exact absurd hr (by simp)
        · rw [if_neg hstop] at hrun
          rw [if_neg (by simp : ¬(false && isGroupReady w1 (groupFor S seq p0) false) = true)]
            at hrun
          have hready1 : isGroupReady w1 (groupFor S seq p0) false = true := by
            simpa using hstop
          have hcross : ∀ p ∈ ps, ∀ ko ∈ groupFor S seq p,
              ∀ ko' ∈ groupFor S seq p0, ¬(ko'.1 = ko.1 ∧ ko'.2.name = ko.2.name) := by
            intro p hp ko hko ko' hko'
            exact groupFor_cross_ne S seq hSkeys p p0 (fun hc => hnd.1 (hc ▸ hp)) ko hko ko' hko'
          have hsnap1 : ∀ p ∈ ps, ∀ ko ∈ groupFor S seq p,
              w1.get ko.1 ko.2.name = some ko.2 := by
            intro p hp ko hko
            have hunt := execGroup_untouched false (groupFor S seq p0) (w, orig) (w1, o1) hx
              ko.1 ko.2.name (hcross p hp ko hko)
            rw [hunt.1]
            exact hsnap p (by simp [hp]) ko hko
          obtain ⟨htrans, hready⟩ := ih w1 o1 w' orig' rdy hnd.2 hrun hsnap1
          constructor
          · intro k n o hget
            obtain ⟨o1r, hget1, hst1, hst2, hd1⟩ := hstep k n o hget
            obtain ⟨o', hget', hst1', hst2', hd2⟩ := htrans k n o1r hget1
            refine ⟨o', hget', hst1'.trans hst1, hst2'.trans hst2, ?_⟩
            rcases hd1 with ⟨hs1, hl1⟩ | ⟨cur, hc1, hc2, hc3, hc4⟩
            · rcases hd2 with ⟨hs2, hl2⟩ | ⟨cur, hc1, hc2, hc3, hc4⟩
              · exact Or.inl ⟨hs2.trans hs1, hl2.trans hl1⟩
              · exact Or.inr ⟨cur, hs1 ▸ hc1, hc2, hc3, by rw [hc4, hl1]⟩
            · rcases hd2 with ⟨hs2, hl2⟩ | ⟨cur', hc1', hc2', hc3', hc4'⟩
              · exact Or.inr ⟨cur, hc1, hc2, hs2.trans hc3, hl2.trans hc4⟩
              · rw [hc3] at hc1'
                exact absurd (Option.some.inj hc1').symm hc2'
          · intro hr p hp ko hko
            rcases List.mem_cons.mp hp with rfl | hp'
            · simp only [isGroupReady, List.all_eq_true] at hready1
              have hro := hready1 ko hko
              refine (readyOne_false_statuses w w1 ko.1 ko.2 ?_).symm.trans hro
              obtain ⟨cur, hcur, hres⟩ := hmem ko hko
              have hgw : w.get ko.1 ko.2.name = some ko.2 := hsnap0 ko hko
              by_cases hz : cur = 0
              · rw [if_pos hz] at hres
                rw [hres.1, hgw]
                exact ⟨rfl, rfl⟩
              · rw [if_neg hz] at hres
                rw [hres.1, hgw]
                exact ⟨rfl, rfl⟩
            · have hro := hready hr p hp' ko hko
              have hgeq : w1.get ko.1 ko.2.name = w.get ko.1 ko.2.name := by
                have hunt := execGroup_untouched false (groupFor S seq p0) (w, orig) (w1, o1)
                  hx ko.1 ko.2.name (hcross p hp' ko hko)
                exact hunt.1
              exact (readyOne_congr w w1 ko.1 ko.2 false hgeq).symm.trans hro

theorem readyOne_true_elim (w : World) (k : Kind) (o v : Workload)
    (hget : w.get k o.name = some v) (hro : readyOne w k o true = true) :
    ¬v.specReplicas.getD 0 = 0 ∧ v.specReplicas.getD 0 ≤ v.statusReadyReplicas := by
  simp only [readyOne, hget, Option.getD_some] at hro
  simp only [Bool.and_eq_true, Bool.not_eq_true', decide_eq_false_iff_not, not_lt,
    if_true] at hro
  exact ⟨by simpa using hro.1, by simpa using hro.2⟩

/-- One scale-up run, per stored object: the desired count either stays
or becomes the recorded original (falling back to current-if-positive,
else 1); an entry disappears only when its group was observed ready at
the written count; statuses never change; and a run reporting the target
reached leaves every listed group observed ready in the final state. -/
theorem runGroups_up_object (S : List (Kind × Workload)) (seq : List String)
    (hSkeys : (S.map fun ko => keyOf ko.1 ko.2.name).Nodup) :
    ∀ (ps : List Nat) (w : World) (orig : Originals) (w' : World) (orig' : Originals)
      (rdy : Bool),
      ps.Nodup →
      runGroups true false (ps.map (groupFor S seq)) w orig = .done w' orig' rdy →
      (∀ p ∈ ps, ∀ ko ∈ groupFor S seq p, w.get ko.1 ko.2.name = some ko.2) →
      (∀ (k : Kind) (n : String) (o : Workload), w.get k n = some o →
        ∃ o', w'.get k n = some o'
          ∧ o'.statusReplicas = o.statusReplicas
          ∧ o'.statusReadyReplicas = o.statusReadyReplicas
          ∧ ((o'.specReplicas = o.specReplicas
                ∧ oLookup orig' (keyOf k n) = oLookup orig (keyOf k n))
            ∨ (∃ cur target, o.specReplicas = some cur
                ∧ target = (match oLookup orig (keyOf k n) with
                    | some t => t
                    | none => if cur > 0 then cur else 1)
                ∧ o'.specReplicas = some target
                ∧ (oLookup orig' (keyOf k n) = oLookup orig (keyOf k n)
                    ∨ (oLookup orig' (keyOf k n) = none ∧ ¬target = 0
                        ∧ target ≤ o.statusReadyReplicas)))))
      ∧ (rdy = true → ∀ p ∈ ps, isGroupReady w' (groupFor S seq p) true = true) := by
  intro ps
  induction ps with
  | nil =>
    intro w orig w' orig' rdy _ hrun _
    simp only [List.map_nil, runGroups, ScaleOutcome.done.injEq] at hrun
    obtain ⟨rfl, rfl, rfl⟩ := hrun
    exact ⟨fun k n o h => ⟨o, h, rfl, rfl, Or.inl ⟨rfl, rfl⟩⟩, fun _ p hp => by simp at hp⟩
  | cons p0 ps ih =>
    intro w orig w' orig' rdy hnd hrun hsnap
    simp only [List.map_cons, runGroups] at hrun
    simp only [List.nodup_cons] at hnd
    have hsnap0 : ∀ ko ∈ groupFor S seq p0, w.get ko.1 ko.2.name = some ko.2 :=
      fun ko hko => hsnap p0 (by simp) ko hko
    have hcross : ∀ p ∈ ps, ∀ ko ∈ groupFor S seq p,
        ∀ ko' ∈ groupFor S seq p0, ¬(ko'.1 = ko.1 ∧ ko'.2.name = ko.2.name) := by
      intro p hp ko hko ko' hko'
      exact groupFor_cross_ne S seq hSkeys p p0 (fun hc => hnd.1 (hc ▸ hp)) ko hko ko' hko'
    have hcross' : ∀ ko ∈ groupFor S seq p0, ∀ p ∈ ps, ∀ ko' ∈ groupFor S seq p,
        ¬(ko'.1 = ko.1 ∧ ko'.2.name = ko.2.name) := by
      intro ko hko p hp ko' hko'
      exact groupFor_cross_ne S seq hSkeys p0 p (fun hc => hnd.1 (hc.symm ▸ hp)) ko hko ko' hko'
    by_cases hready0 : isGroupReady w (groupFor S seq p0) true
    · rw [if_pos hready0] at hrun
      obtain ⟨htrans, hready⟩ :=
        ih w orig w' orig' rdy hnd.2 hrun (fun p hp => hsnap p (by simp [hp]))
      refine ⟨htrans, ?_⟩
      intro hr p hp
      rcases List.mem_cons.mp hp with heq | hp'
      · subst heq
        have hgr : ∀ ko ∈ groupFor S seq p, w'.get ko.1 ko.2.name = w.get ko.1 ko.2.name := by
          intro ko hko
          refine (runGroups_untouched true false _ w orig w' orig' rdy hrun ko.1 ko.2.name ?_).1
          intro objs hobjs ko' hko'
          simp only [List.mem_map] at hobjs
          obtain ⟨p', hp', rfl⟩ := hobjs
          exact hcross' ko hko p' hp' ko' hko'
        simp only [isGroupReady, List.all_eq_true] at hready0 ⊢
        intro ko hko
        rw [readyOne_congr w w' ko.1 ko.2 true (hgr ko hko)]
        exact hready0 ko hko
      · exact hready hr p hp'
    · rw [if_neg hready0] at hrun
      cases hx : execGroup true (groupFor S seq p0) (w, orig) with
      | none => rw [hx] at hrun; exact absurd hrun (by simp)
      | some st1 =>
        rw [hx] at hrun
        obtain ⟨w1, o1⟩ := st1
        dsimp only at hrun
        have hnd0 := groupFor_keys_nodup S seq hSkeys p0
        obtain ⟨ho1, hother, hmem⟩ :=
          execGroup_up_member (groupFor S seq p0) w orig w1 o1 hx hnd0 hsnap0
        by_cases hstop : (!isGroupReady w1 (groupFor S seq p0) true && !false) = true
        · rw [if_pos hstop] at hrun
          simp only [ScaleOutcome.done.injEq] at hrun
          obtain ⟨rfl, rfl, rfl⟩ := hrun
          refine ⟨?_, fun hr => absurd hr (by simp)⟩
          intro k n o hget
          by_cases hin : ∃ ko ∈ groupFor S seq p0, ko.1 = k ∧ ko.2.name = n
          · obtain ⟨ko, hko, hk1, hk2⟩ := hin
            have hgets : w.get k n = some ko.2 := by
              rw [← hk1, ← hk2]; exact hsnap0 ko hko
            have hoeq : o = ko.2 := by rw [hget] at hgets; exact Option.some.inj hgets
            subst hoeq
            obtain ⟨cur, target, hcur, htarget, hres⟩ := hmem ko hko
            refine ⟨if cur = target then ko.2 else { ko.2 with specReplicas := some target },
              ?_, ?_, ?_, Or.inr ⟨cur, target, hcur, ?_, ?_, Or.inl (by rw [ho1])⟩⟩
            · rw [← hk1, ← hk2]; exact hres
            · by_cases hct : cur = target <;> simp [hct]
            · by_cases hct : cur = target <;> simp [hct]
            · rw [← hk1, ← hk2]; exact htarget
            · by_cases hct : cur = target
              · rw [if_pos hct]
                rw [show ko.2.specReplicas = some cur from hcur, hct]
              · rw [if_neg hct]
          · have hno : ∀ ko ∈ groupFor S seq p0, ¬(ko.1 = k ∧ ko.2.name = n) := by
              intro ko hko hpair
              exact hin ⟨ko, hko, hpair⟩
            refine ⟨o, (hother k n hno).trans hget, rfl, rfl, Or.inl ⟨rfl, by rw [ho1]⟩⟩
        · rw [if_neg hstop] at hrun
          have hready1 : isGroupReady w1 (groupFor S seq p0) true = true := by
            simpa using hstop
          rw [if_pos (by simp [hready1])] at hrun
          have hsnap1 : ∀ p ∈ ps, ∀ ko ∈ groupFor S seq p,
              w1.get ko.1 ko.2.name = some ko.2 := by
            intro p hp ko hko
            rw [hother ko.1 ko.2.name (hcross p hp ko hko)]
            exact hsnap p (by simp [hp]) ko hko
          obtain ⟨htrans, hready⟩ := ih w1 _ w' orig' rdy hnd.2 hrun hsnap1
          constructor
          · intro k n o hget
            by_cases hin : ∃ ko ∈ groupFor S seq p0, ko.1 = k ∧ ko.2.name = n
            · obtain ⟨ko, hko, hk1, hk2⟩ := hin
              have hgets : w.get k n = some ko.2 := by
                rw [← hk1, ← hk2]; exact hsnap0 ko hko
              have hoeq : o = ko.2 := by rw [hget] at hgets; exact Option.some.inj hgets
              subst hoeq
              obtain ⟨cur, target, hcur, htarget, hres⟩ := hmem ko hko
              have hkey : keyOf ko.1 ko.2.name = keyOf k n := by rw [hk1, hk2]
              have herased : oLookup ((groupFor S seq p0).foldl
                  (fun m ko => oErase m (keyOf ko.1 ko.2.name)) o1) (keyOf k n) = none := by
                refine oLookup_foldl_oErase_mem (keyOf k n) (groupFor S seq p0) o1
                  ⟨ko, hko, hkey⟩
              have hrestuntouched := runGroups_untouched true false _ w1 _ w' orig' rdy hrun
                k n (by
                  intro objs hobjs ko' hko'
                  simp only [List.mem_map] at hobjs
                  obtain ⟨p', hp', rfl⟩ := hobjs
                  intro hpair
                  exact hcross' ko hko p' hp' ko' hko' ⟨hk1 ▸ hpair.1, hk2 ▸ hpair.2⟩)
              have hro : readyOne w1 ko.1 ko.2 true = true := by
                simp only [isGroupReady, List.all_eq_true] at hready1
                exact hready1 ko hko
              have hw1get : w1.get k n =
                  some (if cur = target then ko.2
                    else { ko.2 with specReplicas := some target }) := by
                rw [← hk1, ← hk2]; exact hres
              have hspecv : (if cur = target then ko.2
                  else { ko.2 with specReplicas := some target }).specReplicas = some target := by
                by_cases hct : cur = target
                · rw [if_pos hct, show ko.2.specReplicas = some cur from hcur, hct]
                · rw [if_neg hct]
              have hw1getko : w1.get ko.1 ko.2.name =
                  some (if cur = target then ko.2
                    else { ko.2 with specReplicas := some target }) := by
                rw [hk1, hk2]; exact hw1get
              have hreadyv : ¬target = 0 ∧ target ≤ ko.2.statusReadyReplicas := by
                obtain ⟨h1, h2⟩ := readyOne_true_elim w1 ko.1 ko.2 _ hw1getko hro
                rw [hspecv] at h1 h2
                refine ⟨by simpa using h1, ?_⟩
                by_cases hct : cur = target
                · rw [if_pos hct] at h2
                  simpa using h2
                · rw [if_neg hct] at h2
                  simpa using h2
              refine ⟨if cur = target then ko.2 else { ko.2 with specReplicas := some target },
                ?_, ?_, ?_, Or.inr ⟨cur, target, hcur, ?_, ?_, Or.inr ⟨?_, hreadyv.1,
                  hreadyv.2⟩⟩⟩
              · rw [hrestuntouched.1, hw1get]
              · by_cases hct : cur = target <;> simp [hct]
              · by_cases hct : cur = target <;> simp [hct]
              · rw [← hk1, ← hk2]; exact htarget
              · exact hspecv
              · rw [hrestuntouched.2]
                exact herased
            · have hno : ∀ ko ∈ groupFor S seq p0, ¬(ko.1 = k ∧ ko.2.name = n) := by
                intro ko hko hpair
                exact hin ⟨ko, hko, hpair⟩
              have hlook1 : oLookup ((groupFor S seq p0).foldl
                  (fun m ko => oErase m (keyOf ko.1 ko.2.name)) o1) (keyOf k n) =
                  oLookup orig (keyOf k n) := by
                rw [oLookup_foldl_oErase k n (groupFor S seq p0) o1 hno, ho1]
              have hget1 : w1.get k n = w.get k n := hother k n hno
              obtain ⟨o', hget', hst1', hst2', hd2⟩ := htrans k n o (hget1.trans hget)
              refine ⟨o', hget', hst1', hst2', ?_⟩
              rcases hd2 with ⟨hs2, hl2⟩ | ⟨cur, target, hc1, hc2, hc3, hc4⟩
              · exact Or.inl ⟨hs2, hl2.trans hlook1⟩
              · refine Or.inr ⟨cur, target, hc1, by rw [hc2, hlook1], hc3, ?_⟩
                rcases hc4 with hc4 | ⟨hc4, hc5, hc6⟩
                · exact Or.inl (hc4.trans hlook1)
                · exact Or.inr ⟨hc4, hc5, hc6⟩
          · intro hr p hp
            rcases List.mem_cons.mp hp with rfl | hp'
            · simp only [isGroupReady, List.all_eq_true] at hready1 ⊢
              intro ko hko
              have hgr : w'.get ko.1 ko.2.name = w1.get ko.1 ko.2.name := by
                refine (runGroups_untouched true false _ w1 _ w' orig' rdy hrun ko.1 ko.2.name
                  ?_).1
                intro objs hobjs ko' hko'
                simp only [List.mem_map] at hobjs
                obtain ⟨p', hp', rfl⟩ := hobjs
                exact hcross' ko hko p' hp' ko' hko'
              rw [readyOne_congr w1 w' ko.1 ko.2 true hgr]
              exact hready1 ko hko
            · exact hready hr p hp'

theorem isSome_setSpec (w : World) (k' : Kind) (n' : String) (c : Int) (k : Kind) (n : String) :
    ((w.setSpec k' n' c).get k n).isSome = (w.get k n).isSome := by
  by_cases hk : k = k'
  · subst hk
    rw [get_setSpec_same]
    cases w.get k n <;> rfl
  · rw [get_setSpec_diff w k k' n n' c hk]

theorem specsSome_setSpec (w : World) (k' : Kind) (n' : String) (c : Int) (hc : 0 ≤ c)
    (h : specsSome w) : specsSome (w.setSpec k' n' c) := by
  intro k n o hget
  by_cases hk : k = k'
  · subst hk
    rw [get_setSpec_same] at hget
    cases hg : w.get k n with
    | none => rw [hg] at hget; exact absurd hget (by simp)
    | some o0 =>
      rw [hg] at hget
      have he : (if o0.name = n' then { o0 with specReplicas := some c } else o0) = o := by
        simpa using hget
      subst he
      by_cases ho : o0.name = n'
      · rw [if_pos ho]; exact ⟨c, rfl, hc⟩
      · rw [if_neg ho]; exact h k n o0 hg
  · rw [get_setSpec_diff w k k' n n' c hk] at hget
    exact h k n o hget

/-- One `execObj` step keeps the cluster well-formed, keeps every desired
count present and non-negative, keeps recorded originals positive, and
stores no new and deletes no existing object. -/
theorem execObj_preserves (a : Bool) (w : World) (m : Originals) (ko : Kind × Workload)
    (w' : World) (m' : Originals) (h : execObj a (w, m) ko = some (w', m'))
    (hwf : wfWorld w) (hss : specsSome w) (hop : origPos m) :
    wfWorld w' ∧ specsSome w' ∧ origPos m'
      ∧ ∀ (k : Kind) (n : String), ((w'.get k n).isSome = (w.get k n).isSome) := by
  obtain ⟨k0, o0⟩ := ko
  cases a
  · obtain ⟨cur, hcur, hcase⟩ := execObj_down w m k0 o0 (w', m') h
    by_cases hz : cur = 0
    · rw [if_pos hz] at hcase
      have h1 : w' = w := congrArg Prod.fst hcase
      have h2 : m' = m := congrArg Prod.snd hcase
      subst h1
      subst h2
      exact ⟨hwf, hss, hop, fun k n => rfl⟩
    · rw [if_neg hz] at hcase
      have h1 : w' = w.setSpec k0 o0.name 0 := hcase.1
      have h2 : m' = (if cur > 0 then oInsert m (keyOf k0 o0.name) cur else m) := hcase.2
      subst h1
      subst h2
      refine ⟨wf_setSpec w k0 o0.name 0 hwf, specsSome_setSpec w k0 o0.name 0 le_rfl hss,
        ?_, fun k n => isSome_setSpec w k0 o0.name 0 k n⟩
      by_cases hp : cur > 0
      · rw [if_pos hp]
        exact origPos_oInsert m (keyOf k0 o0.name) cur hp hop
      · rw [if_neg hp]
        exact hop
  · obtain ⟨hm, cur, target, hcur, htar, hw⟩ := execObj_up w m k0 o0 (w', m') h
    have hm' : m' = m := hm
    have hopm : origPos m' := by rw [hm']; exact hop
    have htpos : 0 ≤ target := by
      rw [htar]
      cases hL : oLookup m (keyOf k0 o0.name) with
      | some t =>
        dsimp only
        exact le_of_lt (by simpa using hop _ (mem_of_oLookup m (keyOf k0 o0.name) t hL))
      | none =>
        dsimp only
        by_cases hp : cur > 0
        · rw [if_pos hp]; exact le_of_lt hp
        · rw [if_neg hp]; norm_num
    have hw' : w' = (if cur = target then w else w.setSpec k0 o0.name target) := hw
    by_cases hct : cur = target
    · rw [if_pos hct] at hw'
      subst hw'
      exact ⟨hwf, hss, hopm, fun k n => rfl⟩
    · rw [if_neg hct] at hw'
      subst hw'
      exact ⟨wf_setSpec w k0 o0.name target hwf,
        specsSome_setSpec w k0 o0.name target htpos hss, hopm,
        fun k n => isSome_setSpec w k0 o0.name target k n⟩

theorem execGroup_preserves (a : Bool) :
    ∀ (objs : List (Kind × Workload)) (w : World) (m : Originals) (w' : World)
      (m' : Originals),
      execGroup a objs (w, m) = some (w', m') →
      wfWorld w → specsSome w → origPos m →
      wfWorld w' ∧ specsSome w' ∧ origPos m'
        ∧ ∀ (k : Kind) (n : String), ((w'.get k n).isSome = (w.get k n).isSome) := by
  intro objs
  induction objs with
  | nil =>
    intro w m w' m' h hwf hss hop
    have h2 : (some (w, m) : Option (World × Originals)) = some (w', m') := h
    cases h2
    exact ⟨hwf, hss, hop, fun k n => rfl⟩
  | cons ko rest ih =>
    intro w m w' m' h hwf hss hop
    simp only [execGroup, List.foldlM_cons] at h
    cases hx : execObj a (w, m) ko with
    | none => rw [hx] at h; exact absurd h (by simp)
    | some st1 =>
      rw [hx] at h
      obtain ⟨w1, m1⟩ := st1
      have h' : execGroup a rest (w1, m1) = some (w', m') := h
      obtain ⟨hwf1, hss1, hop1, hsome1⟩ := execObj_preserves a w m ko w1 m1 hx hwf hss hop
      obtain ⟨hwf', hss', hop', hsome'⟩ := ih w1 m1 w' m' h' hwf1 hss1 hop1
      exact ⟨hwf', hss', hop', fun k n => (hsome' k n).trans (hsome1 k n)⟩

theorem runGroups_preserves (a tp : Bool) :
    ∀ (gs : List (List (Kind × Workload))) (w : World) (m : Originals)
      (w' : World) (m' : Originals) (rdy : Bool),
      runGroups a tp gs w m = .done w' m' rdy →
      wfWorld w → specsSome w → origPos m →
      wfWorld w' ∧ specsSome w' ∧ origPos m'
        ∧ ∀ (k : Kind) (n : String), ((w'.get k n).isSome = (w.get k n).isSome) := by
  intro gs
  induction gs with
  | nil =>
    intro w m w' m' rdy h hwf hss hop
    simp only [runGroups, ScaleOutcome.done.injEq] at h
    obtain ⟨rfl, rfl, rfl⟩ := h
    exact ⟨hwf, hss, hop, fun k n => rfl⟩
  | cons objs rest ih =>
    intro w m w' m' rdy h hwf hss hop
    simp only [runGroups] at h
    by_cases hr : isGroupReady w objs a
    · rw [if_pos hr] at h
      exact ih w m w' m' rdy h hwf hss hop
    · rw [if_neg hr] at h
      cases hx : execGroup a objs (w, m) with
      | none => rw [hx] at h; exact absurd h (by simp)
      | some st1 =>
        rw [hx] at h
        obtain ⟨w1, m1⟩ := st1
        dsimp only at h
        obtain ⟨hwf1, hss1, hop1, hsome1⟩ := execGroup_preserves a objs w m w1 m1 hx hwf hss hop
        by_cases hstop : (!isGroupReady w1 objs a && !tp) = true
        · rw [if_pos hstop] at h
          simp only [ScaleOutcome.done.injEq] at h
          obtain ⟨rfl, rfl, rfl⟩ := h
          exact ⟨hwf1, hss1, hop1, hsome1⟩
        · rw [if_neg hstop] at h
          have hop2 : origPos (if (a && isGroupReady w1 objs a) = true
              then objs.foldl (fun m ko => oErase m (keyOf ko.1 ko.2.name)) m1 else m1) := by
            by_cases hc : (a && isGroupReady w1 objs a) = true
            · rw [if_pos hc]; exact origPos_foldl_oErase objs m1 hop1
            · rw [if_neg hc]; exact hop1
          obtain ⟨hwf', hss', hop', hsome'⟩ := ih w1 _ w' m' rdy h hwf1 hss1 hop2
          exact ⟨hwf', hss', hop', fun k n => (hsome' k n).trans (hsome1 k n)⟩

/-- A completed `ScaleTarget` run keeps the cluster well-formed, keeps
every desired count present and non-negative, keeps recorded originals
positive, and neither adds nor removes stored objects. -/
theorem scaleTarget_preserves (w : World) (a : Bool) (seq excl : List String)
    (m : Originals) (tp : Bool) (w' : World) (m' : Originals) (rdy : Bool)
    (h : scaleTarget w a seq excl m tp = .done w' m' rdy)
    (hwf : wfWorld w) (hss : specsSome w) (hop : origPos m) :
    wfWorld w' ∧ specsSome w' ∧ origPos m'
      ∧ ∀ (k : Kind) (n : String), ((w'.get k n).isSome = (w.get k n).isSome) := by
  simp only [scaleTarget] at h
  rw [if_neg (by simp [hwf.2.2])] at h
  exact runGroups_preserves a tp _ w m w' m' rdy h hwf hss hop

/-- A completed scale-down `ScaleTarget` run, per stored object: the
desired count either stays (entry untouched) or is written to 0 with the
prior positive count recorded; statuses never change; and a run reporting
the target reached found every non-excluded stored workload already
observed down. -/
theorem scaleTarget_down_object (w : World) (seq excl : List String) (orig : Originals)
    (w' : World) (orig' : Originals) (rdy : Bool) (hwf : wfWorld w)
    (hrun : scaleTarget w false seq excl orig false = .done w' orig' rdy) :
    (∀ (k : Kind) (n : String) (o : Workload), w.get k n = some o →
      ∃ o', w'.get k n = some o'
        ∧ o'.statusReplicas = o.statusReplicas
        ∧ o'.statusReadyReplicas = o.statusReadyReplicas
        ∧ ((o'.specReplicas = o.specReplicas
              ∧ oLookup orig' (keyOf k n) = oLookup orig (keyOf k n))
          ∨ (∃ cur, o.specReplicas = some cur ∧ ¬cur = 0 ∧ o'.specReplicas = some 0
              ∧ oLookup orig' (keyOf k n) =
                  (if cur > 0 then some cur else oLookup orig (keyOf k n)))))
    ∧ (rdy = true → ∀ (k : Kind) (n : String) (o : Workload), w.get k n = some o →
        isExcluded n excl = false → readyOne w k o false = true) := by
  simp only [scaleTarget] at hrun
  rw [if_neg (by simp [hwf.2.2])] at hrun
  have hmaster := runGroups_down_object (scalableIn w excl) seq
    (scalable_keys_nodup w excl hwf)
    (prioritiesOf (scalableIn w excl) seq false) w orig w' orig' rdy
    (prioritiesOf_nodup _ _ _) hrun
    (fun p _ ko hko => mem_scalable_get w excl hwf ko ((mem_groupFor _ _ _ _).mp hko).1)
  refine ⟨hmaster.1, ?_⟩
  intro hr k n o hget hexcl
  obtain ⟨hmem, _⟩ := get_mem_scalable w excl k n o hget hexcl
  exact hmaster.2 hr (getSequenceIndex o.name seq)
    (mem_prioritiesOf _ seq false (k, o) hmem)
    (k, o) ((mem_groupFor _ _ _ _).mpr ⟨hmem, rfl⟩)

/-- A completed scale-up `ScaleTarget` run, per stored object: the
desired count either stays or becomes the recorded original (falling back
to current-if-positive, else 1); the entry is removed only when the
workload's group was observed ready at that count; statuses never change;
and a run reporting the target reached leaves every non-excluded stored
workload observed ready in the final state. -/
theorem scaleTarget_up_object (w : World) (seq excl : List String) (orig : Originals)
    (w' : World) (orig' : Originals) (rdy : Bool) (hwf : wfWorld w)
    (hrun : scaleTarget w true seq excl orig false = .done w' orig' rdy) :
    (∀ (k : Kind) (n : String) (o : Workload), w.get k n = some o →
      ∃ o', w'.get k n = some o'
        ∧ o'.statusReplicas = o.statusReplicas
        ∧ o'.statusReadyReplicas = o.statusReadyReplicas
        ∧ ((o'.specReplicas = o.specReplicas
              ∧ oLookup orig' (keyOf k n) = oLookup orig (keyOf k n))
          ∨ (∃ cur target, o.specReplicas = some cur
              ∧ target = (match oLookup orig (keyOf k n) with
                  | some t => t
                  | none => if cur > 0 then cur else 1)
              ∧ o'.specReplicas = some target
              ∧ (oLookup orig' (keyOf k n) = oLookup orig (keyOf k n)
                  ∨ (oLookup orig' (keyOf k n) = none ∧ ¬target = 0
                      ∧ target ≤ o.statusReadyReplicas)))))
    ∧ (rdy = true → ∀ (k : Kind) (n : String) (o : Workload), w.get k n = some o →
        isExcluded n excl = false → readyOne w' k o true = true) := by
  simp only [scaleTarget] at hrun
  rw [if_neg (by simp [hwf.2.2])] at hrun
  have hmaster := runGroups_up_object (scalableIn w excl) seq
    (scalable_keys_nodup w excl hwf)
    (prioritiesOf (scalableIn w excl) seq true) w orig w' orig' rdy
    (prioritiesOf_nodup _ _ _) hrun
    (fun p _ ko hko => mem_scalable_get w excl hwf ko ((mem_groupFor _ _ _ _).mp hko).1)
  refine ⟨hmaster.1, ?_⟩
  intro hr k n o hget hexcl
  obtain ⟨hmem, _⟩ := get_mem_scalable w excl k n o hget hexcl
  have hg := hmaster.2 hr (getSequenceIndex o.name seq)
    (mem_prioritiesOf _ seq true (k, o) hmem)
  simp only [isGroupReady, List.all_eq_true] at hg
  exact hg (k, o) ((mem_groupFor _ _ _ _).mpr ⟨hmem, rfl⟩)

/-- Iterating `ScaleTarget` with `targetActive = false` to convergence,
from a settled well-formed cluster: each stored object's desired count
either survives untouched (entry untouched) or is written to 0 with the
prior positive count recorded; and in the final cluster every
non-excluded workload's desired count is 0. -/
theorem phaseIter_down (seq excl : List String) :
    ∀ (fuel : Nat) (w : World) (orig : Originals) (w1 : World) (orig1 : Originals),
      wfWorld w → specsSome w → convergedW w → origPos orig →
      phaseIter false seq excl fuel w orig = some (w1, orig1, true) →
      wfWorld w1 ∧ specsSome w1 ∧ origPos orig1
      ∧ (∀ (k : Kind) (n : String) (o : Workload), w.get k n = some o →
          ∃ o1, w1.get k n = some o1
            ∧ ((o1.specReplicas = o.specReplicas
                  ∧ oLookup orig1 (keyOf k n) = oLookup orig (keyOf k n))
              ∨ (∃ cur, o.specReplicas = some cur ∧ ¬cur = 0 ∧ o1.specReplicas = some 0
                  ∧ oLookup orig1 (keyOf k n) =
                      (if cur > 0 then some cur else oLookup orig (keyOf k n)))))
      ∧ (∀ (k : Kind) (n : String) (o : Workload), w1.get k n = some o →
          isExcluded n excl = false → o.specReplicas = some 0) := by
  intro fuel
  induction fuel with
  | zero =>
    intro w orig w1 orig1 _ _ _ _ h
    simp [phaseIter] at h
  | succ fuel ih =>
    intro w orig w1 orig1 hwf hss hcv hop h
    simp only [phaseIter] at h
    cases hrun : scaleTarget w false seq excl orig false with
    | listErr => rw [hrun] at h; exact absurd h (by simp)
    | crash => rw [hrun] at h; exact absurd h (by simp)
    | done w' orig' ready =>
      rw [hrun] at h
      dsimp only at h
      obtain ⟨hwf', hss', hop', hsome'⟩ :=
        scaleTarget_preserves w false seq excl orig false w' orig' ready hrun hwf hss hop
      obtain ⟨htrans, hready⟩ := scaleTarget_down_object w seq excl orig w' orig' ready hwf hrun
      by_cases hrdy : ready = true
      · rw [if_pos hrdy] at h
        have hinj := Option.some.inj h
        have h1 : w' = w1 := congrArg (fun p => p.1) hinj
        have h2 : orig' = orig1 := congrArg (fun p => p.2.1) hinj
        subst h1
        subst h2
        refine ⟨hwf', hss', hop', ?_, ?_⟩
        · intro k n o hget
          obtain ⟨o', hget', _, _, hd⟩ := htrans k n o hget
          exact ⟨o', hget', hd⟩
        · intro k n o1 hget1 hexcl
          have hsome := hsome' k n
          rw [hget1] at hsome
          cases hg : w.get k n with
          | none => rw [hg] at hsome; simp at hsome
          | some o =>
            have hname : o.name = n := by simpa using List.find?_some hg
            have hro := hready hrdy k n o hg hexcl
            have hvo : (w.get k o.name).getD o = o := by rw [hname, hg]; rfl
            simp only [readyOne, hvo, Bool.false_eq_true, if_false, Bool.not_eq_true',
              Bool.or_eq_false_iff, decide_eq_false_iff_not, not_lt] at hro
            obtain ⟨r, hr, hrpos⟩ := hss k n o hg
            have hconv := hcv k n o r hg hr
            have hr0 : r = 0 := le_antisymm (hconv.1 ▸ hro.2) hrpos
            obtain ⟨o1', hget1', _, _, hd⟩ := htrans k n o hg
            have ho1 : o1' = o1 := by
              rw [hget1'] at hget1
              exact Option.some.inj hget1
            subst ho1
            rcases hd with ⟨hs, _⟩ | ⟨cur, _, _, hs0, _⟩
            · rw [hs, hr, hr0]
            · exact hs0
      · rw [if_neg hrdy] at h
        obtain ⟨hwf1, hss1, hop1, htrans2, hzero⟩ := ih (converge w') orig' w1 orig1
          (wf_converge w' hwf') (specsSome_converge w' hss') (convergedW_converge w') hop' h
        refine ⟨hwf1, hss1, hop1, ?_, hzero⟩
        intro k n o hget
        obtain ⟨o', hget', _, _, hd1⟩ := htrans k n o hget
        have hgetc : (converge w').get k n = some (convergeOne o') := by
          rw [get_converge, hget']
          rfl
        obtain ⟨o1, hget1, hd2⟩ := htrans2 k n (convergeOne o') hgetc
        refine ⟨o1, hget1, ?_⟩
        have hspecc : (convergeOne o').specReplicas = o'.specReplicas := by
          cases hsp : o'.specReplicas <;> simp [convergeOne, hsp]
        rcases hd1 with ⟨hs1, hl1⟩ | ⟨cur, hc1, hc2, hc3, hc4⟩
        · rcases hd2 with ⟨hs2, hl2⟩ | ⟨cur, hc1', hc2', hc3', hc4'⟩
          · exact Or.inl ⟨hs2.trans (hspecc.trans hs1), hl2.trans hl1⟩
          · refine Or.inr ⟨cur, ?_, hc2', hc3', ?_⟩
            · rw [← hs1, ← hspecc]
              exact hc1'
            · rw [hc4', hl1]
        · rcases hd2 with ⟨hs2, hl2⟩ | ⟨cur', hc1', hc2', hc3', hc4'⟩
          · refine Or.inr ⟨cur, hc1, hc2, ?_, ?_⟩
            · rw [hs2, hspecc]
              exact hc3
            · rw [hl2]
              exact hc4
          · rw [hspecc, hc3] at hc1'
            exact absurd (Option.some.inj hc1').symm hc2'

/-- Iterating `ScaleTarget` with `targetActive = true` to convergence:
each stored object's desired count either survives untouched (entry
untouched) or becomes the count recorded at phase start (falling back to
current-if-positive, else 1), with the entry then kept or erased; and in
the final cluster no non-excluded workload's desired count is 0. -/
theorem phaseIter_up (seq excl : List String) :
    ∀ (fuel : Nat) (w : World) (orig : Originals) (w2 : World) (orig2 : Originals),
      wfWorld w → specsSome w → origPos orig →
      phaseIter true seq excl fuel w orig = some (w2, orig2, true) →
      (∀ (k : Kind) (n : String) (o : Workload), w.get k n = some o →
        ∃ o2, w2.get k n = some o2
          ∧ ((o2.specReplicas = o.specReplicas
                ∧ oLookup orig2 (keyOf k n) = oLookup orig (keyOf k n))
            ∨ (∃ cur target, o.specReplicas = some cur
                ∧ target = (match oLookup orig (keyOf k n) with
                    | some t => t
                    | none => if cur > 0 then cur else 1)
                ∧ o2.specReplicas = some target
                ∧ (oLookup orig2 (keyOf k n) = oLookup orig (keyOf k n)
                    ∨ oLookup orig2 (keyOf k n) = none))))
      ∧ (∀ (k : Kind) (n : String) (o : Workload), w2.get k n = some o →
          isExcluded n excl = false → ¬o.specReplicas.getD 0 = 0) := by
  intro fuel
  induction fuel with
  | zero =>
    intro w orig w2 orig2 _ _ _ h
    simp [phaseIter] at h
  | succ fuel ih =>
    intro w orig w2 orig2 hwf hss hop h
    simp only [phaseIter] at h
    cases hrun : scaleTarget w true seq excl orig false with
    | listErr => rw [hrun] at h; exact absurd h (by simp)
    | crash => rw [hrun] at h; exact absurd h (by simp)
    | done w' orig' ready =>
      rw [hrun] at h
      dsimp only at h
      obtain ⟨hwf', hss', hop', hsome'⟩ :=
        scaleTarget_preserves w true seq excl orig false w' orig' ready hrun hwf hss hop
      obtain ⟨htrans, hready⟩ := scaleTarget_up_object w seq excl orig w' orig' ready hwf hrun
      by_cases hrdy : ready = true
      · rw [if_pos hrdy] at h
        have hinj := Option.some.inj h
        have h1 : w' = w2 := congrArg (fun p => p.1) hinj
        have h2 : orig' = orig2 := congrArg (fun p => p.2.1) hinj
        subst h1
        subst h2
        refine ⟨?_, ?_⟩
        · intro k n o hget
          obtain ⟨o', hget', _, _, hd⟩ := htrans k n o hget
          refine ⟨o', hget', ?_⟩
          rcases hd with ⟨hs, hl⟩ | ⟨cur, target, hc1, ht, hs, hl⟩
          · exact Or.inl ⟨hs, hl⟩
          · refine Or.inr ⟨cur, target, hc1, ht, hs, ?_⟩
            rcases hl with h' | ⟨h', _, _⟩
            · exact Or.inl h'
            · exact Or.inr h'
        · intro k n o2 hget2 hexcl
          have hsome := hsome' k n
          rw [hget2] at hsome
          cases hg : w.get k n with
          | none => rw [hg] at hsome; simp at hsome
          | some o =>
            have hname : o.name = n := by simpa using List.find?_some hg
            have hro := hready hrdy k n o hg hexcl
            have hget2' : w'.get k o.name = some o2 := by
              rw [hname]
              exact hget2
            exact (readyOne_true_elim w' k o o2 hget2' hro).1
      · rw [if_neg hrdy] at h
        obtain ⟨htrans2, hnz⟩ := ih (converge w') orig' w2 orig2
          (wf_converge w' hwf') (specsSome_converge w' hss') hop' h
        refine ⟨?_, hnz⟩
        intro k n o hget
        obtain ⟨o', hget', _, _, hd1⟩ := htrans k n o hget
        have hgetc : (converge w').get k n = some (convergeOne o') := by
          rw [get_converge, hget']
          rfl
        obtain ⟨o2, hget2, hd2⟩ := htrans2 k n (convergeOne o') hgetc
        refine ⟨o2, hget2, ?_⟩
        have hspecc : (convergeOne o').specReplicas = o'.specReplicas := by
          cases hsp : o'.specReplicas <;> simp [convergeOne, hsp]
        rcases hd1 with ⟨hs1, hl1⟩ | ⟨cur, target, hc1, ht1, hs1, hl1⟩
        · rcases hd2 with ⟨hs2, hl2⟩ | ⟨cur2, target2, hc2, ht2, hs2, hl2⟩
          · exact Or.inl ⟨hs2.trans (hspecc.trans hs1), hl2.trans hl1⟩
          · refine Or.inr ⟨cur2, target2, ?_, ?_, hs2, ?_⟩
            · rw [← hs1, ← hspecc]
              exact hc2
            · rw [ht2, hl1]
            · rcases hl2 with h' | h'
              · exact Or.inl (h'.trans hl1)
              · exact Or.inr h'
        · have hl1' : oLookup orig' (keyOf k n) = oLookup orig (keyOf k n)
              ∨ oLookup orig' (keyOf k n) = none := by
            rcases hl1 with h' | ⟨h', _, _⟩
            · exact Or.inl h'
            · exact Or.inr h'
          have htpos : 0 < target := by
            rw [ht1]
            cases hL : oLookup orig (keyOf k n) with
            | some t =>
              dsimp only
              simpa using hop _ (mem_of_oLookup orig (keyOf k n) t hL)
            | none =>
              dsimp only
              by_cases hp : cur > 0
              · rw [if_pos hp]; exact hp
              · rw [if_neg hp]; norm_num
          rcases hd2 with ⟨hs2, hl2⟩ | ⟨cur2, target2, hc2, ht2, hs2, hl2⟩
          · refine Or.inr ⟨cur, target, hc1, ht1, ?_, ?_⟩
            · rw [hs2, hspecc]
              exact hs1
            · rcases hl1' with h' | h'
              · exact Or.inl (hl2.trans h')
              · exact Or.inr (hl2.trans h')
          · have hcur2 : cur2 = target := by
              rw [hspecc, hs1] at hc2
              exact (Option.some.inj hc2).symm
            have ht2' : target2 = target := by
              rw [ht2, hcur2]
              rcases hl1' with h' | h'
              · rw [h']
                cases hL : oLookup orig (keyOf k n) with
                | some t =>
                  dsimp only
                  have ht1' := ht1
                  rw [hL] at ht1'
                  dsimp only at ht1'
                  exact ht1'.symm
                | none =>
                  dsimp only
                  rw [if_pos htpos]
              · rw [h']
                dsimp only
                rw [if_pos htpos]
            refine Or.inr ⟨cur, target, hc1, ht1, ?_, ?_⟩
            · rw [hs2, ht2']
            · rcases hl2 with h2 | h2
              · rcases hl1' with h' | h'
                · exact Or.inl (h2.trans h')
                · exact Or.inr (h2.trans h')
              · exact Or.inr h2

/-- C1: Round-trip restoration. (i) A completed scale-down `ScaleTarget`
run maps every stored workload with desired count `r ≥ 1` either to an
untouched state or to desired count 0 with `originalReplicas[key] = r`
recorded in the same run's result. (ii) A scale-up run removes a recorded
entry only when it left the desired count at the recorded `r` and the
workload was observed ready at `r`. (iii) Scale-down iterated to
convergence followed by scale-up iterated to convergence restores every
non-excluded workload with pre-scale desired count `r ≥ 1` to exactly
`r`, having parked it at 0 with `r` recorded in between. -/
theorem c1_roundtrip_restoration :
    (∀ (w : World) (seq excl : List String) (orig : Originals) (w' : World)
        (orig' : Originals) (rdy : Bool) (k : Kind) (n : String) (o : Workload) (r : Int),
      wfWorld w →
      scaleTarget w false seq excl orig false = .done w' orig' rdy →
      w.get k n = some o → o.specReplicas = some r → 1 ≤ r →
      ∃ o', w'.get k n = some o'
        ∧ ((o'.specReplicas = some r
              ∧ oLookup orig' (keyOf k n) = oLookup orig (keyOf k n))
          ∨ (o'.specReplicas = some 0 ∧ oLookup orig' (keyOf k n) = some r)))
    ∧
    (∀ (w : World) (seq excl : List String) (orig : Originals) (w' : World)
        (orig' : Originals) (rdy : Bool) (k : Kind) (n : String) (o : Workload) (r : Int),
      wfWorld w →
      scaleTarget w true seq excl orig false = .done w' orig' rdy →
      w.get k n = some o →
      oLookup orig (keyOf k n) = some r →
      oLookup orig' (keyOf k n) = none →
      ¬r = 0 ∧ r ≤ o.statusReadyReplicas
        ∧ ∃ o', w'.get k n = some o' ∧ o'.specReplicas = some r)
    ∧
    (∀ (seq excl : List String) (fuelD fuelU : Nat) (w0 w1 w2 : World)
        (orig1 orig2 : Originals) (k : Kind) (n : String) (o : Workload) (r : Int),
      wfWorld w0 → specsSome w0 → convergedW w0 →
      phaseIter false seq excl fuelD w0 [] = some (w1, orig1, true) →
      phaseIter true seq excl fuelU (converge w1) orig1 = some (w2, orig2, true) →
      w0.get k n = some o → isExcluded n excl = false →
      o.specReplicas = some r → 1 ≤ r →
      (∃ o1, w1.get k n = some o1 ∧ o1.specReplicas = some 0)
        ∧ oLookup orig1 (keyOf k n) = some r
        ∧ (∃ o2, w2.get k n = some o2 ∧ o2.specReplicas = some r)) := by
  refine ⟨?_, ?_, ?_⟩
  · intro w seq excl orig w' orig' rdy k n o r hwf hrun hget hspec hr1
    obtain ⟨htrans, _⟩ := scaleTarget_down_object w seq excl orig w' orig' rdy hwf hrun
    obtain ⟨o', hget', _, _, hd⟩ := htrans k n o hget
    refine ⟨o', hget', ?_⟩
    rcases hd with ⟨hs, hl⟩ | ⟨cur, hc1, hc2, hc3, hc4⟩
    · exact Or.inl ⟨hs.trans hspec, hl⟩
    · have hcr : cur = r := by
        rw [hspec] at hc1
        exact (Option.some.inj hc1).symm
      subst hcr
      refine Or.inr ⟨hc3, ?_⟩
      rw [hc4, if_pos (by omega)]
  · intro w seq excl orig w' orig' rdy k n o r hwf hrun hget hlk hnone
    obtain ⟨htrans, _⟩ := scaleTarget_up_object w seq excl orig w' orig' rdy hwf hrun
    obtain ⟨o', hget', _, _, hd⟩ := htrans k n o hget
    rcases hd with ⟨hs, hl⟩ | ⟨cur, target, hc1, ht, hs, hl⟩
    · rw [hnone, hlk] at hl
      exact absurd hl (by simp)
    · have htr : target = r := by
        rw [ht, hlk]
      rcases hl with hl | ⟨_, hne0, hle⟩
      · rw [hnone, hlk] at hl
        exact absurd hl (by simp)
      · subst htr
        exact ⟨hne0, hle, o', hget', hs⟩
  · intro seq excl fuelD fuelU w0 w1 w2 orig1 orig2 k n o r hwf hss hcv hdown hup hget hexcl
      hspec hr1
    obtain ⟨hwf1, hss1, hop1, htransD, hzero⟩ := phaseIter_down seq excl fuelD w0 [] w1 orig1
      hwf hss hcv (by intro p hp; simp at hp) hdown
    obtain ⟨o1, hget1, hd1⟩ := htransD k n o hget
    have ho1z : o1.specReplicas = some 0 := hzero k n o1 hget1 hexcl
    have hlk1 : oLookup orig1 (keyOf k n) = some r := by
      rcases hd1 with ⟨hs, _⟩ | ⟨cur, hc1, _, _, hc4⟩
      · rw [hs, hspec] at ho1z
        exact absurd (Option.some.inj ho1z) (by omega)
      · have hcr : cur = r := by
          rw [hspec] at hc1
          exact (Option.some.inj hc1).symm
        subst hcr
        rw [hc4, if_pos (by omega)]
    obtain ⟨htransU, hnz⟩ := phaseIter_up seq excl fuelU (converge w1) orig1 w2 orig2
      (wf_converge w1 hwf1) (specsSome_converge w1 hss1) hop1 hup
    have hgetc : (converge w1).get k n = some (convergeOne o1) := by
      rw [get_converge, hget1]
      rfl
    obtain ⟨o2, hget2, hd2⟩ := htransU k n (convergeOne o1) hgetc
    have hspecc : (convergeOne o1).specReplicas = some 0 := by
      simp [convergeOne, ho1z]
    have hnz2 := hnz k n o2 hget2 hexcl
    refine ⟨⟨o1, hget1, ho1z⟩, hlk1, o2, hget2, ?_⟩
    rcases hd2 with ⟨hs, _⟩ | ⟨cur, target, hc1, ht, hs, _⟩
    · rw [hs, hspecc] at hnz2
      exact absurd (by simp) hnz2
    · have htr : target = r := by
        rw [ht, hlk1]
      rw [hs, htr]

theorem c1_roundtrip_witness :
    (∃ o', (⟨[⟨"foo", some 0, 3, 3⟩], [⟨"bar", some 0, 2, 2⟩], false⟩ : World).get
        Kind.deployment "foo" = some o'
      ∧ ((o'.specReplicas = some 3
            ∧ oLookup [("*v1.StatefulSet/bar", 2), ("*v1.Deployment/foo", 3)]
                (keyOf Kind.deployment "foo") = oLookup [] (keyOf Kind.deployment "foo"))
        ∨ (o'.specReplicas = some 0
            ∧ oLookup [("*v1.StatefulSet/bar", 2), ("*v1.Deployment/foo", 3)]
                (keyOf Kind.deployment "foo") = some 3)))
    ∧ (¬(3 : Int) = 0 ∧ (3 : Int) ≤ 3
        ∧ ∃ o', (⟨[⟨"foo", some 3, 3, 3⟩], [], false⟩ : World).get
            Kind.deployment "foo" = some o' ∧ o'.specReplicas = some 3)
    ∧ ((∃ o1, (⟨[⟨"foo", some 0, 0, 0⟩], [⟨"bar", some 0, 0, 0⟩], false⟩ : World).get
          Kind.deployment "foo" = some o1 ∧ o1.specReplicas = some 0)
        ∧ oLookup [("*v1.StatefulSet/bar", 2), ("*v1.Deployment/foo", 3)]
            (keyOf Kind.deployment "foo") = some 3
        ∧ (∃ o2, (⟨[⟨"foo", some 3, 3, 3⟩], [⟨"bar", some 2, 2, 2⟩], false⟩ : World).get
            Kind.deployment "foo" = some o2 ∧ o2.specReplicas = some 3)) := by
  have hwfA : wfWorld (⟨[⟨"foo", some 3, 3, 3⟩], [⟨"bar", some 2, 2, 2⟩], false⟩ : World) :=
    ⟨by decide, by decide, rfl⟩
  have hwfB : wfWorld (⟨[⟨"foo", some 0, 3, 3⟩], [], false⟩ : World) :=
    ⟨by decide, by decide, rfl⟩
  have hss0 : specsSome (⟨[⟨"foo", some 3, 3, 3⟩], [⟨"bar", some 2, 2, 2⟩], false⟩ : World) := by
    intro k n o hget
    have hmem := List.mem_of_find?_eq_some hget
    cases k
    · have hm2 : o ∈ [(⟨"foo", some 3, 3, 3⟩ : Workload)] := hmem
      rw [List.mem_singleton] at hm2
      subst hm2
      exact ⟨3, rfl, by decide⟩
    · have hm2 : o ∈ [(⟨"bar", some 2, 2, 2⟩ : Workload)] := hmem
      rw [List.mem_singleton] at hm2
      subst hm2
      exact ⟨2, rfl, by decide⟩
  have hcv0 : convergedW (⟨[⟨"foo", some 3, 3, 3⟩], [⟨"bar", some 2, 2, 2⟩], false⟩ : World) := by
    intro k n o r hget hspec
    have hmem := List.mem_of_find?_eq_some hget
    cases k
    · have hm2 : o ∈ [(⟨"foo", some 3, 3, 3⟩ : Workload)] := hmem
      rw [List.mem_singleton] at hm2
      subst hm2
      have hr : (3 : Int) = r := by simpa using hspec
      subst hr
      exact ⟨rfl, rfl⟩
    · have hm2 : o ∈ [(⟨"bar", some 2, 2, 2⟩ : Workload)] := hmem
      rw [List.mem_singleton] at hm2
      subst hm2
      have hr : (2 : Int) = r := by simpa using hspec
      subst hr
      exact ⟨rfl, rfl⟩
  refine ⟨?_, ?_, ?_⟩
  · exact c1_roundtrip_restoration.1
      ⟨[⟨"foo", some 3, 3, 3⟩], [⟨"bar", some 2, 2, 2⟩], false⟩ [] [] []
      ⟨[⟨"foo", some 0, 3, 3⟩], [⟨"bar", some 0, 2, 2⟩], false⟩
      [("*v1.StatefulSet/bar", 2), ("*v1.Deployment/foo", 3)] false
      Kind.deployment "foo" ⟨"foo", some 3, 3, 3⟩ 3 hwfA (by rfl) rfl rfl (by decide)
  · exact c1_roundtrip_restoration.2.1
      ⟨[⟨"foo", some 0, 3, 3⟩], [], false⟩ [] [] [("*v1.Deployment/foo", 3)]
      ⟨[⟨"foo", some 3, 3, 3⟩], [], false⟩ [] true
      Kind.deployment "foo" ⟨"foo", some 0, 3, 3⟩ 3 hwfB (by rfl) rfl rfl rfl
  · exact c1_roundtrip_restoration.2.2 [] [] 3 3
      ⟨[⟨"foo", some 3, 3, 3⟩], [⟨"bar", some 2, 2, 2⟩], false⟩
      ⟨[⟨"foo", some 0, 0, 0⟩], [⟨"bar", some 0, 0, 0⟩], false⟩
      ⟨[⟨"foo", some 3, 3, 3⟩], [⟨"bar", some 2, 2, 2⟩], false⟩
      [("*v1.StatefulSet/bar", 2), ("*v1.Deployment/foo", 3)]
      [("*v1.StatefulSet/bar", 2), ("*v1.Deployment/foo", 3)]
      Kind.deployment "foo" ⟨"foo", some 3, 3, 3⟩ 3 hwfA hss0 hcv0 (by rfl) (by rfl)
      rfl rfl rfl (by decide)
